import Mathlib

/-!
Shallow embedding of the core of the `ETF_autopilot2.1` repository
(`src/fees.py`, `src/state.py`, `src/strategy.py`) and proofs about it.

Python floats are modelled as rationals (`ℚ`); the `1e-10` tolerance of
`strategy.py` is the exact rational `eps`.  Optional (`None`-able) Python
values are modelled with `Option`.  Bounded `for _ in range(N)` loops are
modelled by structural recursion on a fuel argument initialised to `N`;
running out of fuel corresponds to falling out of the Python loop.
-/

namespace ETF

/-- The floating-point tolerance `1e-10` used throughout `strategy.py`. -/
def eps : ℚ := 1 / 10 ^ 10

/-- Round half to even on rationals, mirroring Python's built-in `round`
applied to an exactly-represented value. -/
def roundHalfEven (x : ℚ) : ℤ :=
  let f := ⌊x⌋
  let r := x - f
  if r < 1 / 2 then f
  else if 1 / 2 < r then f + 1
  else if f % 2 = 0 then f else f + 1

/-- `round(x, 10)` from `strategy.py` (round to ten decimal places). -/
def round10 (x : ℚ) : ℚ := (roundHalfEven (x * 10 ^ 10) : ℚ) / 10 ^ 10

/-- `_round_down(x, step)` from `strategy.py`: `(x // step) * step`
(`x` unchanged when `step <= 0`). -/
def round_down (x step : ℚ) : ℚ :=
  if step ≤ 0 then x else (⌊x / step⌋ : ℚ) * step

/-- Buy-side fee schedule (`fees.py`, class `BuyFees`). -/
structure BuyFees where
  commission_per_share : ℚ
  commission_min_usd : ℚ
  platform_per_share : ℚ
  platform_min_usd : ℚ
  clearing_per_share : ℚ
  other_fixed_fee_usd : ℚ
deriving DecidableEq

/-- `BuyFees.fee` from `fees.py`. -/
def BuyFees.fee (f : BuyFees) (shares : ℚ) : ℚ :=
  if shares ≤ 0 then 0
  else
    max f.commission_min_usd (f.commission_per_share * shares)
      + max f.platform_min_usd (f.platform_per_share * shares)
      + f.clearing_per_share * shares
      + f.other_fixed_fee_usd

/-- Sell-side extra fee schedule (`fees.py`, class `SellExtraFees`). -/
structure SellExtraFees where
  activity_per_share : ℚ
  activity_min_usd : ℚ
  activity_max_usd : ℚ
  cat_per_share : ℚ
  sec_fee_usd : ℚ
deriving DecidableEq

/-- `SellExtraFees.fee` from `fees.py`. -/
def SellExtraFees.fee (f : SellExtraFees) (shares : ℚ) : ℚ :=
  if shares ≤ 0 then 0
  else
    min f.activity_max_usd (max f.activity_min_usd (f.activity_per_share * shares))
      + f.cat_per_share * shares
      + f.sec_fee_usd

/-- A calendar date.  `key` (below) gives the chronological order used for
the pandas `max()` over the `date` column. -/
structure Date where
  year : ℕ
  month : ℕ
  day : ℕ
deriving DecidableEq

/-- Chronological sort key of a date (months have fewer than 100 days). -/
def Date.key (d : Date) : ℕ := (d.year * 100 + d.month) * 100 + d.day

/-- One row of the trade log (`data/trade_log.csv` as read by `state.py`).
`Option` fields model empty / `NaN` cells (or a missing column, when the
field is `none` on every row). -/
structure TradeLogRow where
  date : Option Date
  month_key : Date
  signal : String
  reserve_add_cny : Option ℚ
  reserve_use_cny : Option ℚ
  cash_pool_end_cny : Option ℚ
deriving DecidableEq

/-- `get_reserve_balance_cny` from `state.py`: zero on an empty log, else
the sum of the `reserve_add_cny` column minus the sum of the
`reserve_use_cny` column, `NaN`s counting as zero. -/
def get_reserve_balance_cny (trade_log : List TradeLogRow) : ℚ :=
  if trade_log.isEmpty then 0
  else (trade_log.map (fun r => r.reserve_add_cny.getD 0)).sum
        - (trade_log.map (fun r => r.reserve_use_cny.getD 0)).sum

/-- Python's `str.upper` (ASCII case mapping, as used on the config's
cash-pool `source` field). -/
def py_upper (s : String) : String := ⟨s.data.map Char.toUpper⟩

/-- `get_cash_pool_start_cny` from `state.py`.  The `AUTO` branch takes the
last non-null entry of the `cash_pool_end_cny` column
(`trade_log["cash_pool_end_cny"].dropna().iloc[-1]`), zero when there is
none. -/
def get_cash_pool_start_cny (trade_log : List TradeLogRow) (enabled : Bool)
    (source : String) (manual_cny : ℚ) : ℚ :=
  if !enabled then 0
  else if py_upper source = "MANUAL" then manual_cny
  else
    match (trade_log.filterMap (fun r => r.cash_pool_end_cny)).getLast? with
    | none => 0
    | some v => v

/-- The configuration parameters consumed by the core
(`config.py`, class `Params`; unused fields omitted). -/
structure Params where
  fx_usd_cny : ℚ
  invest_cny_per_trade : ℚ
  first_buy_ratio_below_ma200 : ℚ
  first_daily_drop_threshold : ℚ
  second_drawdown_threshold : ℚ
  third_drawdown_threshold : ℚ
  cooldown_trading_days : ℤ
  max_trades_per_month : ℤ
  target_weight_each : ℚ
  weight_ceiling_guardrail : ℚ
deriving DecidableEq

/-- Execution parameters (`config.py`, class `Execution`). -/
structure Execution where
  allow_fractional_shares : Bool
  fractional_step : ℚ
  spread_cost_pct : ℚ
  other_fixed_fee_usd : ℚ
deriving DecidableEq

/-- Cash-pool settings (`config.py`, class `CashPool`). -/
structure CashPool where
  enabled : Bool
  source : String
  manual_cny : ℚ
deriving DecidableEq

/-- Buy fee configuration (`config.py`, class `FeesBuy`). -/
structure FeesBuy where
  commission_per_share : ℚ
  commission_min_usd : ℚ
  platform_per_share : ℚ
  platform_min_usd : ℚ
  clearing_per_share : ℚ
deriving DecidableEq

/-- The slice of `config.py`'s `Config` used by `strategy.py`. -/
structure Config where
  params : Params
  execution : Execution
  cash_pool : CashPool
  fees_buy : FeesBuy
deriving DecidableEq

/-- The trading-calendar collaborator (`calendar_utils.py`), modelled as an
oracle.  `trading_days_between` returns `none` when the underlying call
raises (the `except` branch of `strategy.py` then substitutes `999`). -/
structure TradingCalendar where
  is_trading_day : Date → Bool
  third_friday : Date → Bool
  trading_days_between : Date → Date → Option ℤ

/-- `daily_ret` in `evaluate_signal`:
`rsp_close / rsp_prev_close - 1` when the previous close is usable. -/
def daily_ret_of (rsp_close rsp_prev_close : ℚ) : Option ℚ :=
  if rsp_prev_close ≠ 0 then some (rsp_close / rsp_prev_close - 1) else none

/-- `monthly_dd` in `evaluate_signal`:
`rsp_close / month_high - 1` when the month high is usable. -/
def monthly_dd_of (rsp_close month_high : ℚ) : Option ℚ :=
  if month_high ≠ 0 then some (rsp_close / month_high - 1) else none

/-- `below` in `evaluate_signal`: `rsp_close < ma200` when `ma200` is usable. -/
def below_of (rsp_close ma200 : ℚ) : Option Bool :=
  if ma200 ≠ 0 then some (decide (rsp_close < ma200)) else none

/-- `_month_key` from `strategy.py`: first day of the month of `d`. -/
def month_key_of (d : Date) : Date := ⟨d.year, d.month, 1⟩

/-- `tlm` in `evaluate_signal`: the trade-log rows of the current month. -/
def month_rows (trade_log : List TradeLogRow) (mk : Date) : List TradeLogRow :=
  trade_log.filter (fun r => r.month_key = mk)

/-- `(tlm["signal"] == s).any()` in `evaluate_signal`
(`False` on an empty month, as in the source). -/
def has_signal (tlm : List TradeLogRow) (s : String) : Bool :=
  tlm.any (fun r => r.signal = s)

/-- `tlm["date"].dropna().max()` in `evaluate_signal`. -/
def last_trade_date (tlm : List TradeLogRow) : Option Date :=
  (tlm.filterMap (fun r => r.date)).foldl
    (fun acc d =>
      match acc with
      | none => some d
      | some m => if m.key < d.key then some d else some m) none

/-- `days_since` in `evaluate_signal`: `999` when there is no in-month trade
or today is not a trading day or the calendar call raises. -/
def days_since_of (cal : TradingCalendar) (asof : Date) (is_td : Bool)
    (ltd : Option Date) : ℤ :=
  match ltd with
  | none => 999
  | some d => if !is_td then 999 else (cal.trading_days_between d asof).getD 999

/-- The result record of `evaluate_signal` (`strategy.py`, `SignalResult`). -/
structure SignalResult where
  date : Date
  is_trading_day : Bool
  third_friday : Bool
  daily_return : Option ℚ
  monthly_drawdown : Option ℚ
  below_ma200 : Option Bool
  month_key : Date
  trades_this_month : ℕ
  has_first : Bool
  has_second : Bool
  has_third : Bool
  days_since_last_trade : ℤ
  cooldown_ok : Bool
  month_limit_ok : Bool
  signal : String
  base_buy_cny : ℚ
  reserve_add_cny : ℚ
  reserve_use_cny : ℚ
  recommended_buy_cny : ℚ
  reserve_balance_before : ℚ
deriving DecidableEq

/-- `evaluate_signal` from `strategy.py` (lines 43-187). -/
def evaluate_signal (cfg : Config) (cal : TradingCalendar) (asof : Date)
    (rsp_close rsp_prev_close ma200 month_high : ℚ)
    (trade_log : List TradeLogRow) : SignalResult :=
  let is_td := cal.is_trading_day asof
  let third_fri := if is_td then cal.third_friday asof else false
  let daily_ret := daily_ret_of rsp_close rsp_prev_close
  let monthly_dd := monthly_dd_of rsp_close month_high
  let below := below_of rsp_close ma200
  let mk := month_key_of asof
  let tlm := month_rows trade_log mk
  let trades_this_month := tlm.length
  let hasF := has_signal tlm "First"
  let hasS := has_signal tlm "Second"
  let hasT := has_signal tlm "Third"
  let ltd := last_trade_date tlm
  let days_since := days_since_of cal asof is_td ltd
  let cooldown_ok := decide (cfg.params.cooldown_trading_days ≤ days_since)
  let month_limit_ok := decide ((trades_this_month : ℤ) < cfg.params.max_trades_per_month)
  let reserve_balance := get_reserve_balance_cny trade_log
  let firstT := is_td && decide (trades_this_month = 0) && cooldown_ok
      && ((daily_ret.elim false fun r => decide (r ≤ cfg.params.first_daily_drop_threshold))
          || third_fri)
  let secondT := is_td && hasF && !hasS && cooldown_ok && month_limit_ok
      && (monthly_dd.elim false fun r => decide (r ≤ cfg.params.second_drawdown_threshold))
  let thirdT := is_td && hasS && !hasT && cooldown_ok && month_limit_ok
      && (monthly_dd.elim false fun r => decide (r ≤ cfg.params.third_drawdown_threshold))
  let use_reserve := is_td && decide (0 < reserve_balance) && cooldown_ok
      && (decide (ma200 ≤ rsp_close) || secondT || thirdT)
  let reserve_only := is_td && use_reserve && !(firstT || secondT || thirdT)
  let signal :=
    if !is_td then "NotTradingDay"
    else if thirdT then "Third"
    else if secondT then "Second"
    else if firstT then "First"
    else if reserve_only then "ReserveOnly"
    else "None"
  let invest := cfg.params.invest_cny_per_trade
  let base :=
    if signal = "First" then
      if below = some true then invest * cfg.params.first_buy_ratio_below_ma200 else invest
    else if signal = "Second" ∨ signal = "Third" then invest
    else 0
  let reserve_add :=
    if signal = "First" ∧ below = some true then
      invest * (1 - cfg.params.first_buy_ratio_below_ma200)
    else 0
  let reserve_use := if use_reserve then reserve_balance else 0
  let recommended :=
    if signal ≠ "NotTradingDay" ∧ signal ≠ "None" then base + reserve_use else 0
  ⟨asof, is_td, third_fri, daily_ret, monthly_dd, below, mk, trades_this_month,
   hasF, hasS, hasT, days_since, cooldown_ok, month_limit_ok, signal,
   base, reserve_add, reserve_use, recommended, reserve_balance⟩

/-- One holdings row (`data/holdings.csv`: ticker, share count). -/
structure Holding where
  ticker : String
  shares : ℚ
deriving DecidableEq

/-- One produced order line (`strategy.py`, `OrderLine`). -/
structure OrderLine where
  ticker : String
  side : String
  shares : ℚ
  price : ℚ
  est_fee_usd : ℚ
  est_gross_usd : ℚ
  note : String
deriving DecidableEq

/-- The fractional decrement search of `affordable_buy_shares`
(`for _ in range(200000)`).  Fuel `0` models falling out of the loop,
reaching the `# fallback` lines which return the current (never
feasibility-checked) quantity and its fee. -/
def afford_loop_frac (fees : BuyFees) (usd_budget price step : ℚ) :
    ℕ → ℚ → ℚ × ℚ
  | 0, shares => (shares, fees.fee shares)
  | fuel + 1, shares =>
    let fee := fees.fee shares
    if shares * price + fee ≤ usd_budget + eps then (shares, fee)
    else
      let shares2 := max 0 (shares - step)
      if shares2 ≤ 0 then (0, 0)
      else afford_loop_frac fees usd_budget price step fuel shares2

/-- The whole-share decrement search of `affordable_buy_shares`
(`for _ in range(100000)`); fuel `0` reaches the trailing fallback. -/
def afford_loop_int (fees : BuyFees) (usd_budget price : ℚ) :
    ℕ → ℤ → ℚ × ℚ
  | 0, shares => ((shares : ℚ), fees.fee (shares : ℚ))
  | fuel + 1, shares =>
    let fee := fees.fee (shares : ℚ)
    if (shares : ℚ) * price + fee ≤ usd_budget + eps then ((shares : ℚ), fee)
    else if shares - 1 ≤ 0 then (0, 0)
    else afford_loop_int fees usd_budget price fuel (shares - 1)

/-- `affordable_buy_shares` from `strategy.py` (lines 207-246): largest
share quantity (a multiple of `step`, resp. a whole number) with
`shares * price + fee(shares) <= usd_budget + 1e-10`, searched by bounded
decrement from the budget-implied estimate. -/
def affordable_buy_shares (usd_budget price : ℚ) (allow_fractional : Bool)
    (step : ℚ) (buy_fees : BuyFees) : ℚ × ℚ :=
  if usd_budget ≤ 0 ∨ price ≤ 0 then (0, 0)
  else if allow_fractional then
    let shares := max 0 (round10 (round_down (usd_budget / price) step))
    afford_loop_frac buy_fees usd_budget price step 200000 shares
  else
    afford_loop_int buy_fees usd_budget price 100000 ⌊usd_budget / price⌋

/-- First element attaining the maximal score together with the remaining
list in order: the head of the stable descending sort
`df.sort_values("underscore", ascending=False)` in `allocate_orders`,
ties broken by input order. -/
def pick_top : List (String × ℚ) → Option ((String × ℚ) × List (String × ℚ))
  | [] => none
  | x :: xs =>
    match pick_top xs with
    | none => some (x, [])
    | some (m, rest) => if x.2 < m.2 then some (m, x :: rest) else some (x, xs)

/-- `under_score` in `allocate_orders`: zero at or above the ceiling
guardrail, else the shortfall below the target weight. -/
def under_score (target ceiling w : ℚ) : ℚ :=
  if ceiling ≤ w then 0 else max 0 (target - w)

/-- `value_cny` in `allocate_orders`: `shares * price * fx`. -/
def holding_value_cny (prices : String → ℚ) (fx : ℚ) (h : Holding) : ℚ :=
  h.shares * prices h.ticker * fx

/-- The `(ticker, underscore)` pairs of `allocate_orders`: weights are the
CNY-value fractions of the portfolio (all zero when the portfolio value is
not positive). -/
def scored_tickers (cfg : Config) (holdings : List Holding)
    (prices : String → ℚ) (fx : ℚ) : List (String × ℚ) :=
  let port_value := (holdings.map (holding_value_cny prices fx)).sum
  holdings.map fun h =>
    let w := if port_value ≤ 0 then 0 else holding_value_cny prices fx h / port_value
    (h.ticker, under_score cfg.params.target_weight_each
        cfg.params.weight_ceiling_guardrail w)

/-- The `suggested` per-ticker CNY budgets of `allocate_orders`
(lines 290-315), together with the `top1` and `top2` ticker names
(`""` = no such ticker). -/
def suggested_of (total_cny : ℚ) (n : ℕ) (scored : List (String × ℚ)) :
    (String → ℚ) × String × String :=
  let sum_us := (scored.map Prod.snd).sum
  if sum_us = 0 then
    (fun _ => total_cny / n, scored.headI.1, "")
  else
    match pick_top scored with
    | none => (fun _ => 0, "", "")
    | some ((t1, s1), rest) =>
      let s2 := match pick_top rest with
        | some ((_, s), _) => s
        | none => 0
      let t2 := match pick_top rest with
        | some ((t, s), _) => if 0 < s then t else ""
        | none => ""
      if s2 = 0 then (fun t => if t = t1 then total_cny else 0, t1, "")
      else
        (fun t =>
          if t = t1 then total_cny * s1 / (s1 + s2)
          else if t = t2 then total_cny * s2 / (s1 + s2)
          else 0, t1, t2)

/-- `fx` in `allocate_orders` (line 264): explicit rate or config fallback. -/
def fx_of (cfg : Config) (fx_usd_cny : Option ℚ) : ℚ :=
  fx_usd_cny.getD cfg.params.fx_usd_cny

/-- `total_cny` in `allocate_orders` (line 265): budget plus the cash-pool
carry when cash-pool accounting is enabled. -/
def total_cny_of (cfg : Config) (buy_total_cny cash_pool_cny : ℚ) : ℚ :=
  buy_total_cny + (if cfg.cash_pool.enabled then cash_pool_cny else 0)

/-- The `BuyFees` object built inside `allocate_orders` (lines 321-328). -/
def buy_fees_of (cfg : Config) : BuyFees :=
  ⟨cfg.fees_buy.commission_per_share, cfg.fees_buy.commission_min_usd,
   cfg.fees_buy.platform_per_share, cfg.fees_buy.platform_min_usd,
   cfg.fees_buy.clearing_per_share, cfg.execution.other_fixed_fee_usd⟩

/-- One iteration of the first pass of `allocate_orders` (lines 334-348):
the order line for one ticker and its contribution to the leftover pool.
Division on `ℚ` is total (`x / 0 = 0`); the Python `cny / fx` instead
raises when `fx = 0` — every claim touching this path assumes a positive
rate. -/
def first_pass_line (prices : String → ℚ) (fx spread : ℚ) (allow_frac : Bool)
    (step : ℚ) (buy_fees : BuyFees) (suggested : String → ℚ) (t : String) :
    OrderLine × ℚ :=
  let cny := suggested t
  if cny ≤ 0 then (⟨t, "HOLD", 0, prices t, 0, 0, ""⟩, 0)
  else
    let usd_budget := cny / fx * (1 - spread)
    let sf := affordable_buy_shares usd_budget (prices t) allow_frac step buy_fees
    let gross := sf.1 * prices t
    let leftover := max 0 (usd_budget - (gross + sf.2))
    (⟨t, if 0 < sf.1 then "BUY" else "HOLD", sf.1, prices t, sf.2, gross,
      if 0 < sf.1 then "OK" else "整股/费用限制导致0股"⟩, leftover)

/-- The fractional enlargement search inside `inc_shares` (lines 363-382).
`none`: the 200000-iteration cap is exhausted (the Python function then
falls off its end and returns `None`, crashing the caller's tuple
unpacking).  `some none`: `add` reached zero, give up (`return 0.0, pool`).
`some (some (shares, fee, pool))`: accepted enlargement. -/
def inc_loop_frac (fees : BuyFees) (price old_shares old_cost pool step : ℚ) :
    ℕ → ℚ → Option (Option (ℚ × ℚ × ℚ))
  | 0, _ => none
  | fuel + 1, add =>
    let new_shares := old_shares + add
    let new_fee := fees.fee new_shares
    let new_cost := new_shares * price + new_fee
    if new_cost - old_cost ≤ pool + eps then
      some (some (new_shares, new_fee, pool - (new_cost - old_cost)))
    else
      let add2 := max 0 (add - step)
      if add2 ≤ 0 then some none
      else inc_loop_frac fees price old_shares old_cost pool step fuel add2

/-- The whole-share enlargement search inside `inc_shares` (lines 384-398),
recursing on `add` itself (`while add > 0: ...; add -= 1`); `none` models
the trailing `return 0.0, pool`. -/
def inc_loop_int (fees : BuyFees) (price old_shares old_cost pool : ℚ) :
    ℕ → Option (ℚ × ℚ × ℚ)
  | 0 => none
  | add + 1 =>
    let new_shares := old_shares + ((add : ℚ) + 1)
    let new_fee := fees.fee new_shares
    let new_cost := new_shares * price + new_fee
    if new_cost - old_cost ≤ pool + eps then
      some (new_shares, new_fee, pool - (new_cost - old_cost))
    else inc_loop_int fees price old_shares old_cost pool add

/-- The field update applied to the enlarged line (lines 375-378 / 392-395).
`pr` is the price of the line `inc_shares` looked up. -/
def upd_line (tk : String) (ns nf pr : ℚ) (o : OrderLine) : OrderLine :=
  if o.ticker = tk then
    ⟨o.ticker, o.side, ns, o.price, nf, ns * pr, "OK(含二次分配)"⟩
  else o

/-- `inc_shares` from `allocate_orders` (lines 351-398): spend `pool` on
additional shares of `ticker`, only if its base order is a nonempty BUY.
The source mutates the `orders` dict keyed by ticker; the tickers are
distinct in every claim considered, so an in-order list updated by ticker
is the same mapping.  Output `none` models a raise: the cap-exhaustion
crash described at `inc_loop_frac`, and the ZeroDivisionError of
`pool / ol.price` when the looked-up line has price 0. -/
def inc_shares (buy_fees : BuyFees) (allow_frac : Bool) (step : ℚ)
    (orders : List OrderLine) (ticker : String) (pool : ℚ) :
    Option (List OrderLine × ℚ) :=
  if pool ≤ 0 then some (orders, pool)
  else
    match orders.find? (fun ol => ol.ticker = ticker) with
    | none => none
    | some ol =>
      if ol.side ≠ "BUY" ∨ ol.shares ≤ 0 then some (orders, pool)
      else
        let old_cost := ol.shares * ol.price + buy_fees.fee ol.shares
        if ol.price = 0 then none
        else
        let res :=
          if allow_frac then
            inc_loop_frac buy_fees ol.price ol.shares old_cost pool step 200000
              (max 0 (round10 (round_down (pool / ol.price) step)))
          else
            some (inc_loop_int buy_fees ol.price ol.shares old_cost pool
              (⌊pool / ol.price⌋).toNat)
        match res with
        | none => none
        | some none => some (orders, pool)
        | some (some (ns, nf, np)) =>
          some (orders.map (upd_line ticker ns nf ol.price), np)

/-- The `Apply` step's `top1`/`top2` (lines 400-406): re-derived from the
underscore ranking when the scores sum to zero (`none` models the
`iloc[0]` IndexError on empty holdings), else those of `suggested_of`. -/
def tops_of (sum_us : ℚ) (scored : List (String × ℚ))
    (sug_tops : String × String) : Option (String × String) :=
  if sum_us = 0 then
    match pick_top scored with
    | none => none
    | some ((t1, _), rest) =>
      some (t1,
        match pick_top rest with
        | some ((t, s), _) => if 0 < s then t else ""
        | none => "")
  else some sug_tops

/-- `if top1: ... if top2: ...` (lines 407-410): run `inc_shares` only for
a nonempty ticker name. -/
def apply_inc (buy_fees : BuyFees) (allow_frac : Bool) (step : ℚ)
    (orders : List OrderLine) (pool : ℚ) (top : String) :
    Option (List OrderLine × ℚ) :=
  if top ≠ "" then inc_shares buy_fees allow_frac step orders top pool
  else some (orders, pool)

/-- The total estimated fee over BUY lines (lines 416-419). -/
def total_fee_of (orders : List OrderLine) : ℚ :=
  (orders.map fun ol =>
    if ol.side = "BUY" ∧ 0 < ol.shares then ol.est_fee_usd else 0).sum

/-- `allocate_orders` from `strategy.py` (lines 249-424).  Returns `none`
exactly where the Python function raises (empty holdings with a positive
budget, or cap exhaustion inside the fractional `inc_shares`). -/
def allocate_orders (cfg : Config) (holdings : List Holding)
    (prices : String → ℚ) (buy_total_cny cash_pool_cny : ℚ)
    (fx_usd_cny : Option ℚ) : Option (List OrderLine × ℚ × ℚ) :=
  if buy_total_cny ≤ 0 then some ([], 0, cash_pool_cny)
  else
    let fx := fx_of cfg fx_usd_cny
    let total_cny := total_cny_of cfg buy_total_cny cash_pool_cny
    let scored := scored_tickers cfg holdings prices fx
    let sum_us := (scored.map Prod.snd).sum
    let sug := suggested_of total_cny holdings.length scored
    let buy_fees := buy_fees_of cfg
    let spread := cfg.execution.spread_cost_pct
    let allow_frac := cfg.execution.allow_fractional_shares
    let step := cfg.execution.fractional_step
    let passed := holdings.map fun h =>
      first_pass_line prices fx spread allow_frac step buy_fees sug.1 h.ticker
    let orders := passed.map Prod.fst
    let pool := (passed.map Prod.snd).sum
    (tops_of sum_us scored sug.2).bind fun tops =>
      (apply_inc buy_fees allow_frac step orders pool tops.1).bind fun s1 =>
        (apply_inc buy_fees allow_frac step s1.1 s1.2 tops.2).map fun s2 =>
          (s2.1, total_fee_of s2.1, s2.2 * fx)

/-- The cash-pool start value as the spec sentence literally reads: "the
`cashPoolEnd` field of the most recent history row (0 if history empty or
field absent)".  Kept separate from `get_cash_pool_start_cny` (the code's
behaviour) so the two can be compared. -/
def cash_pool_start_claimed (trade_log : List TradeLogRow) (enabled : Bool)
    (source : String) (manual_cny : ℚ) : ℚ :=
  if !enabled then 0
  else if py_upper source = "MANUAL" then manual_cny
  else
    match trade_log.getLast? with
    | none => 0
    | some r => r.cash_pool_end_cny.getD 0

/-- The most recently recorded non-null `cash_pool_end_cny` value of the
history (later rows preferred), used to state the amended form of the
cash-pool-start rule. -/
def last_cash_pool_end : List TradeLogRow → Option ℚ
  | [] => none
  | r :: rs => (last_cash_pool_end rs).orElse fun _ => r.cash_pool_end_cny

/-- The amended cash-pool start value: zero if disabled, the manual value
for a MANUAL source, else the most recently recorded non-null
cash-pool-end value (0 if none was ever recorded). -/
def cash_pool_start_amended (trade_log : List TradeLogRow) (enabled : Bool)
    (source : String) (manual_cny : ℚ) : ℚ :=
  if !enabled then 0
  else if py_upper source = "MANUAL" then manual_cny
  else (last_cash_pool_end trade_log).getD 0

/-! Concrete instances used by witnesses and counterexamples. -/

/-- A calendar on which every day trades, none is a third Friday, and any
two days are 999 trading days apart. -/
def calT : TradingCalendar := ⟨fun _ => true, fun _ => false, fun _ _ => some 999⟩

/-- A calendar like `calT` but with a trading-day distance of 10. -/
def calW : TradingCalendar := ⟨fun _ => true, fun _ => false, fun _ _ => some 10⟩

/-- Whole-share, fee-free, spread-free configuration (fx 1, target weight
1/2, ceiling 3/5, cash pool disabled). -/
def cfg_alloc : Config :=
  ⟨⟨1, 2000, 1/2, 0, 0, 0, 1, 3, 1/2, 3/5⟩, ⟨false, 1, 0, 0⟩,
   ⟨false, "AUTO", 0⟩, ⟨0, 0, 0, 0, 0⟩⟩

/-- Two empty holdings rows. -/
def holdings_ab : List Holding := [⟨"A", 0⟩, ⟨"B", 0⟩]

/-- Prices: A at 3 USD, anything else at 7 USD. -/
def prices_ab : String → ℚ := fun t => if t = "A" then 3 else 7

/-- Signal configuration: invest 2000, ratio 1/2, thresholds -1%, -5%,
-10%, cooldown 1, at most 3 trades per month. -/
def cfg_sig : Config :=
  ⟨⟨1, 2000, 1/2, -1/100, -1/20, -1/10, 1, 3, 1/2, 3/5⟩, ⟨false, 1, 0, 0⟩,
   ⟨false, "AUTO", 0⟩, ⟨0, 0, 0, 0, 0⟩⟩

/-- Like `cfg_sig` but with a zero invest-per-trade amount and a
first-drop threshold of 0. -/
def cfg_zero_invest : Config :=
  ⟨⟨1, 0, 1/2, 0, -1/20, -1/10, 1, 3, 1/2, 3/5⟩, ⟨false, 1, 0, 0⟩,
   ⟨false, "AUTO", 0⟩, ⟨0, 0, 0, 0, 0⟩⟩

/-- Like `cfg_sig` but with a first-drop threshold of 0 (for the spec's
worked example). -/
def cfg_first_example : Config :=
  ⟨⟨1, 2000, 1/2, 0, -1/20, -1/10, 1, 3, 1/2, 3/5⟩, ⟨false, 1, 0, 0⟩,
   ⟨false, "AUTO", 0⟩, ⟨0, 0, 0, 0, 0⟩⟩

/-- Like `cfg_sig` but with a 5-trading-day cooldown. -/
def cfg_third : Config :=
  ⟨⟨1, 2000, 1/2, -1/100, -1/20, -1/10, 5, 3, 1/2, 3/5⟩, ⟨false, 1, 0, 0⟩,
   ⟨false, "AUTO", 0⟩, ⟨0, 0, 0, 0, 0⟩⟩

/-- A January trade that banked 40 CNY of reserve. -/
def log_reserve : List TradeLogRow :=
  [⟨some ⟨2025, 1, 6⟩, ⟨2025, 1, 1⟩, "First", some 40, some 0, some 0⟩]

/-- A June month that already contains a First and a Second trade. -/
def log_first_second : List TradeLogRow :=
  [⟨some ⟨2025, 6, 5⟩, ⟨2025, 6, 1⟩, "First", some 0, some 0, some 0⟩,
   ⟨some ⟨2025, 6, 12⟩, ⟨2025, 6, 1⟩, "Second", some 0, some 0, some 0⟩]

/-- A history whose most recent row has an empty cash-pool-end cell while
an older row recorded 5. -/
def log_pool_gap : List TradeLogRow :=
  [⟨some ⟨2025, 1, 6⟩, ⟨2025, 1, 1⟩, "First", some 0, some 0, some 5⟩,
   ⟨some ⟨2025, 2, 6⟩, ⟨2025, 2, 1⟩, "First", some 0, some 0, none⟩]

/-- A fee schedule whose only charge is a 5 USD commission minimum. -/
def fees_min5 : BuyFees := ⟨0, 5, 0, 0, 0, 0⟩

/-- A fee-free schedule. -/
def fees_free : BuyFees := ⟨0, 0, 0, 0, 0, 0⟩

/-- Configuration with target weight 0.52 and ceiling 0.6 (fee-free,
spread-free, whole shares, cash pool disabled). -/
def cfg_c1 : Config :=
  ⟨⟨1, 2000, 1/2, 0, 0, 0, 1, 3, 13/25, 3/5⟩, ⟨false, 1, 0, 0⟩,
   ⟨false, "AUTO", 0⟩, ⟨0, 0, 0, 0, 0⟩⟩

/-- Holdings of 49 and 51 shares (weights 0.49 and 0.51 at unit prices). -/
def holdings_c1 : List Holding := [⟨"A", 49⟩, ⟨"B", 51⟩]

/-- Unit prices for every ticker. -/
def prices_one : String → ℚ := fun _ => 1

/-- The first-pass order line for ticker A in the worked allocation run. -/
def lineA : OrderLine := ⟨"A", "BUY", 3, 3, 0, 9, "OK"⟩

/-- The first-pass order line for ticker B in the worked allocation run. -/
def lineB : OrderLine := ⟨"B", "BUY", 1, 7, 0, 7, "OK"⟩

/-- Ticker A's line after the second-pass enlargement (cost 12 USD). -/
def lineA2 : OrderLine := ⟨"A", "BUY", 4, 3, 0, 12, "OK(含二次分配)"⟩

/-! Basic lemmas about the fee model and rounding. -/

theorem eps_pos : 0 < eps := by norm_num [eps]

theorem fee_nonpos (f : BuyFees) {s : ℚ} (h : s ≤ 0) : f.fee s = 0 := by
  simp [BuyFees.fee, h]

theorem fee_zero (f : BuyFees) : f.fee 0 = 0 := fee_nonpos f le_rfl

/-! ### C7: non-positive budget returns immediately -/

/-- C7: for every non-positive total budget and arbitrary holdings, prices,
fx and cash-pool balance, `allocate_orders` returns immediately with an
empty order list, zero total fee, and the incoming cash-pool balance
unchanged. -/
theorem allocate_orders_nonpos_budget (cfg : Config) (holdings : List Holding)
    (prices : String → ℚ) (buy_total_cny cash_pool_cny : ℚ) (fx : Option ℚ)
    (h : buy_total_cny ≤ 0) :
    allocate_orders cfg holdings prices buy_total_cny cash_pool_cny fx =
      some ([], 0, cash_pool_cny) := by
  unfold allocate_orders
  rw [if_pos h]

/-- C7 witness: a -5 CNY budget with a 3 CNY cash pool. -/
theorem allocate_orders_nonpos_budget_witness :
    allocate_orders cfg_alloc [] prices_one (-5) 3 none = some ([], 0, 3) :=
  allocate_orders_nonpos_budget cfg_alloc [] prices_one (-5) 3 none (by norm_num)

/-! ### C9: fee monotonicity and zero at non-positive shares -/

/-- C9: with nonnegative per-share rates, minimums, clamps and fixed
components, the buy fee and the sell extra fee are monotone nondecreasing
in the share count, and both are exactly 0 for every non-positive share
count. -/
theorem fees_monotone_and_zero (bf : BuyFees) (sf : SellExtraFees)
    (hb1 : 0 ≤ bf.commission_per_share) (hb2 : 0 ≤ bf.commission_min_usd)
    (hb3 : 0 ≤ bf.platform_per_share) (hb4 : 0 ≤ bf.platform_min_usd)
    (hb5 : 0 ≤ bf.clearing_per_share) (hb6 : 0 ≤ bf.other_fixed_fee_usd)
    (hs1 : 0 ≤ sf.activity_per_share) (hs2 : 0 ≤ sf.activity_min_usd)
    (hs3 : 0 ≤ sf.activity_max_usd) (hs4 : 0 ≤ sf.cat_per_share)
    (hs5 : 0 ≤ sf.sec_fee_usd)
    (s1 s2 : ℚ) (h : s1 ≤ s2) :
    bf.fee s1 ≤ bf.fee s2 ∧ sf.fee s1 ≤ sf.fee s2 ∧
      (s1 ≤ 0 → bf.fee s1 = 0 ∧ sf.fee s1 = 0) := by
  refine ⟨?_, ?_, fun h0 => ⟨by simp [BuyFees.fee, h0], by simp [SellExtraFees.fee, h0]⟩⟩
  · unfold BuyFees.fee
    split_ifs with h1 h2 h3
    · exact le_rfl
    · have hs2pos : 0 < s2 := not_le.mp h2
      have : (0:ℚ) ≤ max bf.commission_min_usd (bf.commission_per_share * s2) :=
        le_trans hb2 (le_max_left _ _)
      have : (0:ℚ) ≤ max bf.platform_min_usd (bf.platform_per_share * s2) :=
        le_trans hb4 (le_max_left _ _)
      have : (0:ℚ) ≤ bf.clearing_per_share * s2 := mul_nonneg hb5 hs2pos.le
      positivity
    · exact absurd (le_trans h h3) h1
    · have m1 : bf.commission_per_share * s1 ≤ bf.commission_per_share * s2 :=
        mul_le_mul_of_nonneg_left h hb1
      have m2 : bf.platform_per_share * s1 ≤ bf.platform_per_share * s2 :=
        mul_le_mul_of_nonneg_left h hb3
      have m3 : bf.clearing_per_share * s1 ≤ bf.clearing_per_share * s2 :=
        mul_le_mul_of_nonneg_left h hb5
      exact add_le_add (add_le_add (add_le_add (max_le_max le_rfl m1)
        (max_le_max le_rfl m2)) m3) le_rfl
  · unfold SellExtraFees.fee
    split_ifs with h1 h2 h3
    · exact le_rfl
    · have hs2pos : 0 < s2 := not_le.mp h2
      have g1 : (0:ℚ) ≤ min sf.activity_max_usd
          (max sf.activity_min_usd (sf.activity_per_share * s2)) :=
        le_min hs3 (le_trans hs2 (le_max_left _ _))
      have g2 : (0:ℚ) ≤ sf.cat_per_share * s2 := mul_nonneg hs4 hs2pos.le
      linarith
    · exact absurd (le_trans h h3) h1
    · have m1 : sf.activity_per_share * s1 ≤ sf.activity_per_share * s2 :=
        mul_le_mul_of_nonneg_left h hs1
      have m2 : sf.cat_per_share * s1 ≤ sf.cat_per_share * s2 :=
        mul_le_mul_of_nonneg_left h hs4
      exact add_le_add (add_le_add (min_le_min le_rfl (max_le_max le_rfl m1)) m2) le_rfl

/-- C9 witness: a concrete nonnegative schedule at 1 ≤ 2 shares. -/
theorem fees_monotone_and_zero_witness :
    (⟨1, 2, 1, 1, 1, 1⟩ : BuyFees).fee 1 ≤ (⟨1, 2, 1, 1, 1, 1⟩ : BuyFees).fee 2 ∧
    (⟨1, 1, 8, 1, 1⟩ : SellExtraFees).fee 1 ≤ (⟨1, 1, 8, 1, 1⟩ : SellExtraFees).fee 2 ∧
    ((1:ℚ) ≤ 0 → (⟨1, 2, 1, 1, 1, 1⟩ : BuyFees).fee 1 = 0 ∧
      (⟨1, 1, 8, 1, 1⟩ : SellExtraFees).fee 1 = 0) :=
  fees_monotone_and_zero ⟨1, 2, 1, 1, 1, 1⟩ ⟨1, 1, 8, 1, 1⟩
    (by norm_num) (by norm_num) (by norm_num) (by norm_num) (by norm_num)
    (by norm_num) (by norm_num) (by norm_num) (by norm_num) (by norm_num)
    (by norm_num) 1 2 (by norm_num)

/-! ### C8: reserve balance and cash-pool start folds -/

theorem getLast?_cons_orElse {α : Type} (v : α) (l : List α) :
    (v :: l).getLast? = l.getLast?.orElse fun _ => some v := by
  cases l with
  | nil => rfl
  | cons b bs =>
    rw [List.getLast?_cons_cons]
    cases h : (b :: bs).getLast? with
    | none =>
      exact absurd (List.getLast?_eq_none_iff.mp h) (List.cons_ne_nil b bs)
    | some w => rfl

theorem filterMap_getLast?_eq_last_cash_pool_end (log : List TradeLogRow) :
    (log.filterMap fun r => r.cash_pool_end_cny).getLast? = last_cash_pool_end log := by
  induction log with
  | nil => simp [last_cash_pool_end]
  | cons r rs ih =>
    rw [List.filterMap_cons, last_cash_pool_end]
    cases h : r.cash_pool_end_cny with
    | none =>
      rw [← ih]
      cases (rs.filterMap fun r => r.cash_pool_end_cny).getLast? <;> rfl
    | some v => rw [getLast?_cons_orElse, ih]

/-- C8 (amended): the derived reserve balance is the sum of all rows'
reserve additions minus the sum of all reserve uses (0 for an empty
history); the cash-pool start value is 0 when disabled, the manual value
when the source upper-cases to MANUAL, and otherwise the most recently
recorded non-null cash-pool-end value (0 if none); both are pure folds. -/
theorem reserve_and_cash_pool_folds (log : List TradeLogRow) (enabled : Bool)
    (source : String) (manual : ℚ) :
    get_reserve_balance_cny log =
      (log.map fun r => r.reserve_add_cny.getD 0).sum -
        (log.map fun r => r.reserve_use_cny.getD 0).sum ∧
    get_cash_pool_start_cny log enabled source manual =
      cash_pool_start_amended log enabled source manual := by
  constructor
  · unfold get_reserve_balance_cny
    split_ifs with h
    · rw [List.isEmpty_iff.mp h]
      simp
    · rfl
  · unfold get_cash_pool_start_cny cash_pool_start_amended
    rw [filterMap_getLast?_eq_last_cash_pool_end]
    cases last_cash_pool_end log <;> rfl

/-- C8 counterexample: on a history whose most recent row has a null
cash-pool-end cell, the code returns the older recorded value 5, while the
claim's "cash-pool-end field of the most recent row" reads 0. -/
theorem cash_pool_start_counterexample :
    get_cash_pool_start_cny log_pool_gap true "AUTO" 7 = 5 ∧
    cash_pool_start_claimed log_pool_gap true "AUTO" 7 = 0 ∧
    get_cash_pool_start_cny log_pool_gap true "AUTO" 7 ≠
      cash_pool_start_claimed log_pool_gap true "AUTO" 7 := by
  have hup : ¬(py_upper "AUTO" = "MANUAL") := by decide
  refine ⟨?_, ?_, ?_⟩ <;>
    simp [get_cash_pool_start_cny, cash_pool_start_claimed, log_pool_gap, hup]

/-! ### C2: strict priority of the third trigger -/

/-- C2: on a trading day whose current month already logged a First and a
Second trade but no Third one, with cooldown and month limit satisfied and
a defined monthly drawdown at or below the third threshold,
`evaluate_signal` returns exactly the tier Third, never Second. -/
theorem third_trigger_priority (cfg : Config) (cal : TradingCalendar) (asof : Date)
    (close prev ma hi : ℚ) (log : List TradeLogRow) (dd : ℚ)
    (h_td : (evaluate_signal cfg cal asof close prev ma hi log).is_trading_day = true)
    (h_f : (evaluate_signal cfg cal asof close prev ma hi log).has_first = true)
    (h_s : (evaluate_signal cfg cal asof close prev ma hi log).has_second = true)
    (h_t : (evaluate_signal cfg cal asof close prev ma hi log).has_third = false)
    (h_cd : (evaluate_signal cfg cal asof close prev ma hi log).cooldown_ok = true)
    (h_ml : (evaluate_signal cfg cal asof close prev ma hi log).month_limit_ok = true)
    (h_dd : (evaluate_signal cfg cal asof close prev ma hi log).monthly_drawdown = some dd)
    (h_le : dd ≤ cfg.params.third_drawdown_threshold) :
    (evaluate_signal cfg cal asof close prev ma hi log).signal = "Third" ∧
    (evaluate_signal cfg cal asof close prev ma hi log).signal ≠ "Second" := by
  have main : (evaluate_signal cfg cal asof close prev ma hi log).signal = "Third" := by
    simp only [evaluate_signal] at h_td h_f h_s h_t h_cd h_ml h_dd ⊢
    rw [h_td] at h_cd
    replace h_cd := of_decide_eq_true h_cd
    replace h_ml := of_decide_eq_true h_ml
    simp [h_td, h_f, h_s, h_t, h_dd, h_le, h_cd, h_cd.not_lt, h_ml]
  exact ⟨main, by rw [main]; decide⟩

/-- C2 witness: June 2025 with First (June 5) and Second (June 12) trades,
a 20% month drawdown, a 10-trading-day gap and a 5-day cooldown. -/
theorem third_trigger_priority_witness :
    (evaluate_signal cfg_third calW ⟨2025, 6, 20⟩ 80 100 100 100 log_first_second).signal
        = "Third" ∧
    (evaluate_signal cfg_third calW ⟨2025, 6, 20⟩ 80 100 100 100 log_first_second).signal
        ≠ "Second" :=
  third_trigger_priority cfg_third calW ⟨2025, 6, 20⟩ 80 100 100 100 log_first_second
    (-1/5) rfl
    (by norm_num [evaluate_signal, month_rows, month_key_of, has_signal,
      log_first_second, Date.mk.injEq] <;> decide)
    (by norm_num [evaluate_signal, month_rows, month_key_of, has_signal,
      log_first_second, Date.mk.injEq] <;> decide)
    (by norm_num [evaluate_signal, month_rows, month_key_of, has_signal,
      log_first_second, Date.mk.injEq] <;> decide)
    (by norm_num [evaluate_signal, month_rows, month_key_of, last_trade_date,
      days_since_of, log_first_second, Date.mk.injEq, Date.key, calW, cfg_third,
      List.filterMap_cons, List.foldl_cons, List.foldl_nil])
    (by norm_num [evaluate_signal, month_rows, month_key_of, log_first_second,
      Date.mk.injEq, cfg_third])
    (by norm_num [evaluate_signal, monthly_dd_of])
    (by norm_num [cfg_third])

/-! ### C3: the first trigger, its spend split, and the reserve-add iff -/

/-- C3 (amended): on a trading day with no trades this month, cooldown
satisfied and a defined daily return at or below the first-drop threshold,
the tier is First, the base spend is `invest * ratio` when below the MA200
and `invest` otherwise, the reserve addition is `invest * (1 - ratio)`
when below and 0 otherwise, and the recommended spend is base plus reserve
use; when additionally `invest > 0` and `0 < ratio < 1`, reserve addition
is positive iff the close is below the MA200 (the positivity premise on
`invest` is the amendment). -/
theorem first_trigger_spend (cfg : Config) (cal : TradingCalendar) (asof : Date)
    (close prev ma hi : ℚ) (log : List TradeLogRow) (r : ℚ)
    (h_td : (evaluate_signal cfg cal asof close prev ma hi log).is_trading_day = true)
    (h_tm : (evaluate_signal cfg cal asof close prev ma hi log).trades_this_month = 0)
    (h_cd : (evaluate_signal cfg cal asof close prev ma hi log).cooldown_ok = true)
    (h_dr : (evaluate_signal cfg cal asof close prev ma hi log).daily_return = some r)
    (h_le : r ≤ cfg.params.first_daily_drop_threshold) :
    (evaluate_signal cfg cal asof close prev ma hi log).signal = "First" ∧
    (evaluate_signal cfg cal asof close prev ma hi log).base_buy_cny =
      (if (evaluate_signal cfg cal asof close prev ma hi log).below_ma200 = some true then
        cfg.params.invest_cny_per_trade * cfg.params.first_buy_ratio_below_ma200
      else cfg.params.invest_cny_per_trade) ∧
    (evaluate_signal cfg cal asof close prev ma hi log).reserve_add_cny =
      (if (evaluate_signal cfg cal asof close prev ma hi log).below_ma200 = some true then
        cfg.params.invest_cny_per_trade * (1 - cfg.params.first_buy_ratio_below_ma200)
      else 0) ∧
    (evaluate_signal cfg cal asof close prev ma hi log).recommended_buy_cny =
      (evaluate_signal cfg cal asof close prev ma hi log).base_buy_cny +
        (evaluate_signal cfg cal asof close prev ma hi log).reserve_use_cny ∧
    (0 < cfg.params.invest_cny_per_trade → 0 < cfg.params.first_buy_ratio_below_ma200 →
      cfg.params.first_buy_ratio_below_ma200 < 1 →
      (0 < (evaluate_signal cfg cal asof close prev ma hi log).reserve_add_cny ↔
        (evaluate_signal cfg cal asof close prev ma hi log).below_ma200 = some true)) := by
  simp only [evaluate_signal] at h_td h_tm h_cd h_dr ⊢
  rw [h_td] at h_cd
  rw [List.length_eq_zero] at h_tm
  rw [h_tm] at h_cd
  replace h_cd := of_decide_eq_true h_cd
  refine ⟨?_, ?_, ?_, ?_, ?_⟩ <;>
    simp [h_td, h_tm, h_dr, h_le, h_cd, h_cd.not_lt, has_signal]
  intro hinv h0 h1
  by_cases hb : below_of close ma = some true <;>
    simp [hb, mul_pos hinv (by linarith : (0:ℚ) < 1 - cfg.params.first_buy_ratio_below_ma200)]

/-- C3 counterexample: with a zero invest-per-trade amount (ratio 1/2,
close 90 below MA200 200, daily return -10% at threshold 0, no trades this
month), the tier is First and the close is below the MA200, yet the
reserve addition is 0 — the claimed "reserveAdd > 0 iff belowMA200"
equivalence fails as stated. -/
theorem first_trigger_reserve_add_counterexample :
    (evaluate_signal cfg_zero_invest calT ⟨2025, 7, 1⟩ 90 100 200 90 []).signal = "First" ∧
    (evaluate_signal cfg_zero_invest calT ⟨2025, 7, 1⟩ 90 100 200 90 []).below_ma200
        = some true ∧
    0 < cfg_zero_invest.params.first_buy_ratio_below_ma200 ∧
    cfg_zero_invest.params.first_buy_ratio_below_ma200 < 1 ∧
    ¬(0 < (evaluate_signal cfg_zero_invest calT ⟨2025, 7, 1⟩ 90 100 200 90 []).reserve_add_cny) := by
  refine ⟨?_, ?_, by norm_num [cfg_zero_invest], by norm_num [cfg_zero_invest], ?_⟩ <;>
    norm_num [evaluate_signal, daily_ret_of, monthly_dd_of, below_of, month_key_of,
      month_rows, has_signal, last_trade_date, days_since_of, get_reserve_balance_cny,
      calT, cfg_zero_invest]

/-- C3 witness: the spec's worked example — invest 2000, ratio 1/2, below
the MA200, first trigger of the month, zero reserve balance. -/
theorem first_trigger_spend_witness :
    (evaluate_signal cfg_first_example calT ⟨2025, 7, 1⟩ 90 100 200 90 []).signal
        = "First" ∧
    (evaluate_signal cfg_first_example calT ⟨2025, 7, 1⟩ 90 100 200 90 []).base_buy_cny
        = 1000 ∧
    (evaluate_signal cfg_first_example calT ⟨2025, 7, 1⟩ 90 100 200 90 []).reserve_add_cny
        = 1000 ∧
    (evaluate_signal cfg_first_example calT ⟨2025, 7, 1⟩ 90 100 200 90 []).recommended_buy_cny
        = 1000 := by
  obtain ⟨h1, h2, h3, h4, -⟩ :=
    first_trigger_spend cfg_first_example calT ⟨2025, 7, 1⟩ 90 100 200 90 [] (-1/10)
      rfl rfl
      (by norm_num [evaluate_signal, month_rows, month_key_of, last_trade_date,
        days_since_of, calT, cfg_first_example])
      (by norm_num [evaluate_signal, daily_ret_of])
      (by norm_num [cfg_first_example])
  have hb : (evaluate_signal cfg_first_example calT ⟨2025, 7, 1⟩ 90 100 200 90 []).below_ma200
      = some true := by
    norm_num [evaluate_signal, below_of]
  have hu : (evaluate_signal cfg_first_example calT ⟨2025, 7, 1⟩ 90 100 200 90 []).reserve_use_cny
      = 0 := by
    norm_num [evaluate_signal, get_reserve_balance_cny]
  rw [hb] at h2 h3
  simp only [reduceIte] at h2 h3
  refine ⟨h1, ?_, ?_, ?_⟩
  · rw [h2]; norm_num [cfg_first_example]
  · rw [h3]; norm_num [cfg_first_example]
  · rw [h4, h2, hu]; norm_num [cfg_first_example]

/-! ### C6: graceful degradation of unusable market readings -/

/-- C6 (amended): a zero previous close makes the daily return unknown and
(absent a third Friday) blocks the First tier; a zero month high makes the
monthly drawdown unknown and blocks the Second and Third tiers; a zero
MA200 makes the below-MA200 flag unknown and zeroes the reserve addition.
The claim's further assertion that an unusable MA200 never enables
useReserve is dropped: `use_reserve` compares `close >= ma200` against the
raw reading (see the counterexample). -/
theorem unusable_readings_degrade (cfg : Config) (cal : TradingCalendar) (asof : Date)
    (close prev ma hi : ℚ) (log : List TradeLogRow) :
    (prev = 0 → (evaluate_signal cfg cal asof close prev ma hi log).daily_return = none) ∧
    (prev = 0 → cal.third_friday asof = false →
      (evaluate_signal cfg cal asof close prev ma hi log).signal ≠ "First") ∧
    (hi = 0 → (evaluate_signal cfg cal asof close prev ma hi log).monthly_drawdown = none ∧
      (evaluate_signal cfg cal asof close prev ma hi log).signal ≠ "Second" ∧
      (evaluate_signal cfg cal asof close prev ma hi log).signal ≠ "Third") ∧
    (ma = 0 → (evaluate_signal cfg cal asof close prev ma hi log).below_ma200 = none ∧
      (evaluate_signal cfg cal asof close prev ma hi log).reserve_add_cny = 0) := by
  refine ⟨fun h => ?_, fun h htf => ?_, fun h => ⟨?_, ?_, ?_⟩, fun h => ⟨?_, ?_⟩⟩ <;>
    simp only [evaluate_signal] <;>
    simp [daily_ret_of, monthly_dd_of, below_of, h] <;>
    try simp [htf]
  all_goals split_ifs <;> simp_all

/-- C6 counterexample: with `ma200 = 0` (unusable), a positive close, a
positive banked reserve and no trades this month, `evaluate_signal`
classifies the day ReserveOnly and spends the whole reserve: the unusable
MA200 did enable useReserve via the raw `close >= ma200` comparison. -/
theorem unusable_ma200_enables_reserve_counterexample :
    (evaluate_signal cfg_sig calT ⟨2025, 6, 10⟩ 100 100 0 100 log_reserve).below_ma200
        = none ∧
    (evaluate_signal cfg_sig calT ⟨2025, 6, 10⟩ 100 100 0 100 log_reserve).signal
        = "ReserveOnly" ∧
    (evaluate_signal cfg_sig calT ⟨2025, 6, 10⟩ 100 100 0 100 log_reserve).reserve_use_cny
        = 40 := by
  norm_num [evaluate_signal, daily_ret_of, monthly_dd_of, below_of, month_key_of,
    month_rows, has_signal, last_trade_date, days_since_of, get_reserve_balance_cny,
    calT, cfg_sig, log_reserve, Date.mk.injEq]

/-- C6 witness: all three readings zero on a non-third-Friday trading day. -/
theorem unusable_readings_degrade_witness :
    (evaluate_signal cfg_sig calT ⟨2025, 6, 10⟩ 100 0 0 0 []).daily_return = none ∧
    (evaluate_signal cfg_sig calT ⟨2025, 6, 10⟩ 100 0 0 0 []).signal ≠ "First" ∧
    (evaluate_signal cfg_sig calT ⟨2025, 6, 10⟩ 100 0 0 0 []).monthly_drawdown = none ∧
    (evaluate_signal cfg_sig calT ⟨2025, 6, 10⟩ 100 0 0 0 []).signal ≠ "Second" ∧
    (evaluate_signal cfg_sig calT ⟨2025, 6, 10⟩ 100 0 0 0 []).signal ≠ "Third" ∧
    (evaluate_signal cfg_sig calT ⟨2025, 6, 10⟩ 100 0 0 0 []).below_ma200 = none ∧
    (evaluate_signal cfg_sig calT ⟨2025, 6, 10⟩ 100 0 0 0 []).reserve_add_cny = 0 := by
  obtain ⟨k1, k2, k3, k4⟩ :=
    unusable_readings_degrade cfg_sig calT ⟨2025, 6, 10⟩ 100 0 0 0 []
  exact ⟨k1 rfl, k2 rfl rfl, (k3 rfl).1, (k3 rfl).2.1, (k3 rfl).2.2,
    (k4 rfl).1, (k4 rfl).2⟩

/-! ### Lemmas about the bounded decrement searches -/

theorem afford_loop_frac_invariant (fees : BuyFees) (b p st : ℚ) :
    ∀ (fuel : ℕ) (s : ℚ), 0 ≤ s →
      0 ≤ (afford_loop_frac fees b p st fuel s).1 ∧
      (afford_loop_frac fees b p st fuel s).2 =
        fees.fee (afford_loop_frac fees b p st fuel s).1 := by
  intro fuel
  induction fuel with
  | zero => exact fun s hs => ⟨hs, rfl⟩
  | succ n ih =>
    intro s hs
    simp only [afford_loop_frac]
    split_ifs with h1 h2
    · exact ⟨hs, rfl⟩
    · exact ⟨le_rfl, (fee_zero fees).symm⟩
    · exact ih _ (le_max_left 0 _)

theorem afford_loop_int_invariant (fees : BuyFees) (b p : ℚ) :
    ∀ (fuel : ℕ) (n : ℤ), 0 ≤ n →
      0 ≤ (afford_loop_int fees b p fuel n).1 ∧
      (afford_loop_int fees b p fuel n).2 =
        fees.fee (afford_loop_int fees b p fuel n).1 := by
  intro fuel
  induction fuel with
  | zero => exact fun n hn => ⟨by exact Int.cast_nonneg.mpr hn, rfl⟩
  | succ m ih =>
    intro n hn
    simp only [afford_loop_int]
    split_ifs with h1 h2
    · exact ⟨by exact Int.cast_nonneg.mpr hn, rfl⟩
    · exact ⟨le_rfl, (fee_zero fees).symm⟩
    · exact ih _ (by omega)

theorem affordable_buy_shares_invariant (b p st : ℚ) (frac : Bool) (fees : BuyFees) :
    0 ≤ (affordable_buy_shares b p frac st fees).1 ∧
    (affordable_buy_shares b p frac st fees).2 =
      fees.fee (affordable_buy_shares b p frac st fees).1 := by
  unfold affordable_buy_shares
  split_ifs with h1 h2
  · exact ⟨le_rfl, (fee_zero fees).symm⟩
  · exact afford_loop_frac_invariant fees b p st 200000 _ (le_max_left 0 _)
  · push_neg at h1
    exact afford_loop_int_invariant fees b p 100000 _
      (Int.floor_nonneg.mpr (div_nonneg h1.1.le h1.2.le))

theorem afford_loop_frac_fits (fees : BuyFees) (b p st : ℚ) (hb : 0 < b) :
    ∀ (fuel : ℕ) (s : ℚ), 0 ≤ s → s ≤ (fuel : ℚ) * st →
      (afford_loop_frac fees b p st fuel s).1 * p +
        (afford_loop_frac fees b p st fuel s).2 ≤ b + eps := by
  have he := eps_pos
  intro fuel
  induction fuel with
  | zero =>
    intro s h0 hle
    have hs0 : s = 0 := le_antisymm (by simpa using hle) h0
    subst hs0
    show 0 * p + fees.fee 0 ≤ b + eps
    rw [fee_zero]
    linarith
  | succ n ih =>
    intro s h0 hle
    simp only [afford_loop_frac]
    split_ifs with h1 h2
    · exact h1
    · show (0:ℚ) * p + 0 ≤ b + eps
      linarith
    · push_cast at hle
      have hpos : 0 < max 0 (s - st) := not_le.mp h2
      have hmax : max 0 (s - st) = s - st := by
        rcases max_cases 0 (s - st) with ⟨hm, -⟩ | ⟨hm, -⟩
        · rw [hm] at hpos; exact absurd hpos (lt_irrefl 0)
        · exact hm
      apply ih
      · exact le_max_left 0 _
      · rw [hmax]
        have hst : 0 ≤ st := by
          by_contra hc
          push_neg at hc
          have hneg : ((n:ℚ) + 1) * st < 0 :=
            mul_neg_of_pos_of_neg (by positivity) hc
          linarith
        linarith

theorem afford_loop_int_fits (fees : BuyFees) (b p : ℚ) (hb : 0 < b) :
    ∀ (fuel : ℕ) (n : ℤ), 0 ≤ n → n ≤ (fuel : ℤ) →
      (afford_loop_int fees b p fuel n).1 * p +
        (afford_loop_int fees b p fuel n).2 ≤ b + eps := by
  have he := eps_pos
  intro fuel
  induction fuel with
  | zero =>
    intro n h0 hle
    have hn0 : n = 0 := le_antisymm (by exact_mod_cast hle) h0
    subst hn0
    show ((0:ℤ):ℚ) * p + fees.fee ((0:ℤ):ℚ) ≤ b + eps
    rw [show ((0:ℤ):ℚ) = 0 by norm_num, fee_zero, zero_mul, add_zero]
    linarith
  | succ m ih =>
    intro n h0 hle
    simp only [afford_loop_int]
    split_ifs with h1 h2
    · exact h1
    · show (0:ℚ) * p + 0 ≤ b + eps
      linarith
    · exact ih _ (by omega) (by push_cast at hle ⊢; omega)

theorem roundHalfEven_le (x : ℚ) : (roundHalfEven x : ℚ) ≤ x + 1/2 := by
  have hf : (⌊x⌋ : ℚ) ≤ x := Int.floor_le x
  simp only [roundHalfEven]
  split_ifs with h1 h2 h3 <;> push_cast <;>
    [linarith; linarith; linarith;
     (have ha := le_of_not_lt h1; have hb := le_of_not_lt h2; linarith)]

theorem round10_le (x : ℚ) : round10 x ≤ x + eps := by
  have h := roundHalfEven_le (x * 10 ^ 10)
  unfold round10 eps
  rw [div_le_iff (by norm_num : (0:ℚ) < 10 ^ 10)]
  ring_nf
  ring_nf at h
  linarith

theorem round_down_le {st : ℚ} (x : ℚ) (h : 0 < st) : round_down x st ≤ x := by
  unfold round_down
  rw [if_neg (not_le.mpr h)]
  calc (⌊x / st⌋ : ℚ) * st ≤ x / st * st :=
        mul_le_mul_of_nonneg_right (Int.floor_le _) h.le
    _ = x := div_mul_cancel₀ x h.ne'

theorem afford_guard_false {b p : ℚ} (hb : 0 < b) (hp : 0 < p) : ¬(b ≤ 0 ∨ p ≤ 0) := by
  push_neg
  exact ⟨hb, hp⟩

theorem affordable_fits_frac (b p st : ℚ) (fees : BuyFees)
    (hb : 0 < b) (hp : 0 < p) (hst : 0 < st)
    (hcap : b / p + eps ≤ 200000 * st) :
    (affordable_buy_shares b p true st fees).1 * p +
      (affordable_buy_shares b p true st fees).2 ≤ b + eps := by
  unfold affordable_buy_shares
  rw [if_neg (afford_guard_false hb hp), if_pos rfl]
  apply afford_loop_frac_fits fees b p st hb 200000 _ (le_max_left 0 _)
  have h1 : round10 (round_down (b / p) st) ≤ b / p + eps :=
    le_trans (round10_le _) (by linarith [round_down_le (b / p) hst])
  have h2 : (0:ℚ) ≤ b / p + eps := by
    have := eps_pos
    have := div_pos hb hp
    linarith
  push_cast
  exact le_trans (max_le h2 h1) hcap

theorem affordable_fits_int (b p st : ℚ) (fees : BuyFees)
    (hb : 0 < b) (hp : 0 < p) (hcap : ⌊b / p⌋ ≤ 100000) :
    (affordable_buy_shares b p false st fees).1 * p +
      (affordable_buy_shares b p false st fees).2 ≤ b + eps := by
  unfold affordable_buy_shares
  rw [if_neg (afford_guard_false hb hp)]
  simp only [Bool.false_eq_true, if_false]
  apply afford_loop_int_fits fees b p hb 100000 _
    (Int.floor_nonneg.mpr (div_nonneg hb.le hp.le))
  exact_mod_cast hcap

theorem afford_loop_frac_exhaust (fees : BuyFees) (b p st : ℚ) (hst : 0 ≤ st)
    (hinf : ∀ s : ℚ, 0 < s → ¬(s * p + fees.fee s ≤ b + eps)) :
    ∀ (fuel : ℕ) (s : ℚ), (fuel : ℚ) * st < s →
      afford_loop_frac fees b p st fuel s =
        (s - (fuel : ℚ) * st, fees.fee (s - (fuel : ℚ) * st)) := by
  intro fuel
  induction fuel with
  | zero =>
    intro s h
    show (s, fees.fee s) = _
    norm_num
  | succ n ih =>
    intro s h
    push_cast at h
    have hs : 0 < s := by
      have : (0:ℚ) ≤ ((n:ℚ) + 1) * st := by positivity
      linarith
    have h2 : (n : ℚ) * st < s - st := by linarith
    have hpos : 0 < s - st := by
      have : (0:ℚ) ≤ (n:ℚ) * st := by positivity
      linarith
    simp only [afford_loop_frac]
    rw [if_neg (hinf s hs), max_eq_right hpos.le, if_neg (not_le.mpr hpos), ih _ h2]
    push_cast
    ring_nf

theorem afford_loop_frac_deplete (fees : BuyFees) (b p st : ℚ) (hb : 0 < b)
    (hinf : ∀ s : ℚ, 0 < s → ¬(s * p + fees.fee s ≤ b + eps)) :
    ∀ (fuel : ℕ) (s : ℚ), 0 ≤ s → s ≤ (fuel : ℚ) * st →
      (afford_loop_frac fees b p st fuel s).1 = 0 := by
  have he := eps_pos
  intro fuel
  induction fuel with
  | zero =>
    intro s h0 hle
    have hs0 : s = 0 := le_antisymm (by simpa using hle) h0
    subst hs0
    rfl
  | succ n ih =>
    intro s h0 hle
    rcases eq_or_lt_of_le h0 with h0' | h0'
    · rw [← h0']
      simp only [afford_loop_frac]
      rw [if_pos (show (0:ℚ) * p + fees.fee 0 ≤ b + eps by
        rw [fee_zero, zero_mul, add_zero]; linarith)]
    · simp only [afford_loop_frac]
      rw [if_neg (hinf s h0')]
      split_ifs with h2
      · rfl
      · push_cast at hle
        have hpos : 0 < max 0 (s - st) := not_le.mp h2
        have hmax : max 0 (s - st) = s - st := by
          rcases max_cases 0 (s - st) with ⟨hm, -⟩ | ⟨hm, -⟩
          · rw [hm] at hpos; exact absurd hpos (lt_irrefl 0)
          · exact hm
        apply ih
        · exact le_max_left 0 _
        · rw [hmax]
          have hst : 0 ≤ st := by
            by_contra hc
            push_neg at hc
            have hneg : ((n:ℚ) + 1) * st < 0 :=
              mul_neg_of_pos_of_neg (by positivity) hc
            linarith
          linarith

/-! ### Lemmas about the second-pass enlargement search -/

theorem inc_loop_frac_accept (fees : BuyFees) (price os oc pool st : ℚ) :
    ∀ (fuel : ℕ) (add : ℚ), 0 ≤ add →
      ∀ {ns nf np : ℚ},
        inc_loop_frac fees price os oc pool st fuel add = some (some (ns, nf, np)) →
        os ≤ ns ∧ nf = fees.fee ns ∧ ns * price + nf ≤ oc + pool + eps := by
  intro fuel
  induction fuel with
  | zero =>
    intro add _ ns nf np h
    exact absurd h (by simp [inc_loop_frac])
  | succ k ih =>
    intro add hadd ns nf np h
    simp only [inc_loop_frac] at h
    split_ifs at h with hc hz
    · simp only [Option.some.injEq, Prod.mk.injEq] at h
      obtain ⟨h1, h2, h3⟩ := h
      subst h1
      subst h2
      exact ⟨by linarith, rfl, by linarith [hc]⟩
    · exact absurd h (by simp)
    · exact ih _ (le_max_left 0 _) h

theorem inc_loop_int_accept (fees : BuyFees) (price os oc pool : ℚ) :
    ∀ (add : ℕ) {ns nf np : ℚ},
      inc_loop_int fees price os oc pool add = some (ns, nf, np) →
      os ≤ ns ∧ nf = fees.fee ns ∧ ns * price + nf ≤ oc + pool + eps := by
  intro add
  induction add with
  | zero =>
    intro ns nf np h
    exact absurd h (by simp [inc_loop_int])
  | succ k ih =>
    intro ns nf np h
    simp only [inc_loop_int] at h
    split_ifs at h with hc
    · simp only [Option.some.injEq, Prod.mk.injEq] at h
      obtain ⟨h1, h2, h3⟩ := h
      subst h1
      subst h2
      refine ⟨?_, rfl, by linarith [hc]⟩
      have : (0:ℚ) ≤ (k:ℚ) + 1 := by positivity
      linarith
    · exact ih h

theorem upd_line_ticker (tk : String) (ns nf pr : ℚ) (o : OrderLine) :
    (upd_line tk ns nf pr o).ticker = o.ticker := by
  unfold upd_line
  split <;> rfl

theorem upd_line_side (tk : String) (ns nf pr : ℚ) (o : OrderLine) :
    (upd_line tk ns nf pr o).side = o.side := by
  unfold upd_line
  split <;> rfl

theorem upd_line_price (tk : String) (ns nf pr : ℚ) (o : OrderLine) :
    (upd_line tk ns nf pr o).price = o.price := by
  unfold upd_line
  split <;> rfl

theorem upd_line_other {tk : String} {ns nf pr : ℚ} {o : OrderLine}
    (h : o.ticker ≠ tk) : upd_line tk ns nf pr o = o := by
  unfold upd_line
  rw [if_neg h]

theorem upd_line_match {tk : String} {ns nf pr : ℚ} {o : OrderLine}
    (h : o.ticker = tk) :
    upd_line tk ns nf pr o = ⟨o.ticker, o.side, ns, o.price, nf, ns * pr, "OK(含二次分配)"⟩ := by
  unfold upd_line
  rw [if_pos h]

theorem inc_shares_shape (fees : BuyFees) (frac : Bool) (st : ℚ)
    (orders : List OrderLine) (tk : String) (pool : ℚ)
    (o' : List OrderLine) (p' : ℚ)
    (hnd : (orders.map OrderLine.ticker).Nodup)
    (h : inc_shares fees frac st orders tk pool = some (o', p')) :
    (o' = orders ∧ p' = pool) ∨
    ∃ f : OrderLine → OrderLine, o' = orders.map f ∧
      (∀ o, (f o).ticker = o.ticker) ∧
      (∀ o, (f o).side = o.side) ∧
      (∀ o, (f o).price = o.price) ∧
      (∀ o, o.ticker ≠ tk → f o = o) ∧
      (∀ o ∈ orders, f o = o ∨
        (o.side = "BUY" ∧ 0 < o.shares ∧ o.shares ≤ (f o).shares ∧
          (f o).shares * (f o).price + (f o).est_fee_usd ≤
            o.shares * o.price + fees.fee o.shares + pool + eps)) := by
  by_cases hpool : pool ≤ 0
  · simp only [inc_shares, if_pos hpool, Option.some.injEq, Prod.mk.injEq] at h
    exact Or.inl ⟨h.1.symm, h.2.symm⟩
  · cases hf : orders.find? (fun ol => ol.ticker = tk) with
    | none => simp [inc_shares, hpool, hf] at h
    | some ol =>
      have hmem : ol ∈ orders := List.mem_of_find?_eq_some hf
      have htick : ol.ticker = tk := by
        have := List.find?_some hf
        simpa using this
      by_cases hcond : ol.side ≠ "BUY" ∨ ol.shares ≤ 0
      · simp only [inc_shares, if_neg hpool, hf, if_pos hcond,
          Option.some.injEq, Prod.mk.injEq] at h
        exact Or.inl ⟨h.1.symm, h.2.symm⟩
      · have hbuy : ol.side = "BUY" := not_not.mp (not_or.mp hcond).1
        have hsh : 0 < ol.shares := not_le.mp (not_or.mp hcond).2
        by_cases hpz : ol.price = 0
        · simp [inc_shares, hpool, hf, hcond, hpz] at h
        cases frac with
        | false =>
          cases hr : inc_loop_int fees ol.price ol.shares
              (ol.shares * ol.price + fees.fee ol.shares) pool
              (⌊pool / ol.price⌋).toNat with
          | none =>
            simp only [inc_shares, if_neg hpool, hf, if_neg hcond, if_neg hpz,
              Bool.false_eq_true, if_false, hr, Option.some.injEq, Prod.mk.injEq] at h
            exact Or.inl ⟨h.1.symm, h.2.symm⟩
          | some triple =>
            obtain ⟨ns, nf, np⟩ := triple
            simp only [inc_shares, if_neg hpool, hf, if_neg hcond, if_neg hpz,
              Bool.false_eq_true, if_false, hr, Option.some.injEq, Prod.mk.injEq] at h
            obtain ⟨h1, h2⟩ := h
            obtain ⟨k1, k2, k3⟩ := inc_loop_int_accept fees ol.price ol.shares _ pool _ hr
            refine Or.inr ⟨upd_line tk ns nf ol.price, h1.symm,
              upd_line_ticker tk ns nf ol.price, upd_line_side tk ns nf ol.price,
              upd_line_price tk ns nf ol.price, fun o ho => upd_line_other ho, ?_⟩
            intro o ho
            by_cases hot : o.ticker = tk
            · have hoe : o = ol := List.inj_on_of_nodup_map hnd ho hmem (by rw [hot, htick])
              subst hoe
              rw [upd_line_match hot]
              exact Or.inr ⟨hbuy, hsh, k1, by dsimp only; linarith [k3]⟩
            · exact Or.inl (upd_line_other hot)
        | true =>
          cases hr : inc_loop_frac fees ol.price ol.shares
              (ol.shares * ol.price + fees.fee ol.shares) pool st 200000
              (max 0 (round10 (round_down (pool / ol.price) st))) with
          | none =>
            simp [inc_shares, hpool, hf, hcond, hpz, hr] at h
          | some res =>
            cases res with
            | none =>
              simp only [inc_shares, if_neg hpool, hf, if_neg hcond, if_neg hpz,
                if_true, hr, Option.some.injEq, Prod.mk.injEq] at h
              exact Or.inl ⟨h.1.symm, h.2.symm⟩
            | some triple =>
              obtain ⟨ns, nf, np⟩ := triple
              simp only [inc_shares, if_neg hpool, hf, if_neg hcond, if_neg hpz,
                if_true, hr, Option.some.injEq, Prod.mk.injEq] at h
              obtain ⟨h1, h2⟩ := h
              obtain ⟨k1, k2, k3⟩ := inc_loop_frac_accept fees ol.price ol.shares _ pool st
                200000 _ (le_max_left 0 _) hr
              refine Or.inr ⟨upd_line tk ns nf ol.price, h1.symm,
                upd_line_ticker tk ns nf ol.price, upd_line_side tk ns nf ol.price,
                upd_line_price tk ns nf ol.price, fun o ho => upd_line_other ho, ?_⟩
              intro o ho
              by_cases hot : o.ticker = tk
              · have hoe : o = ol := List.inj_on_of_nodup_map hnd ho hmem (by rw [hot, htick])
                subst hoe
                rw [upd_line_match hot]
                exact Or.inr ⟨hbuy, hsh, k1, by dsimp only; linarith [k3]⟩
              · exact Or.inl (upd_line_other hot)

theorem apply_inc_shape (fees : BuyFees) (frac : Bool) (st : ℚ)
    (orders : List OrderLine) (pool : ℚ) (top : String)
    (o' : List OrderLine) (p' : ℚ)
    (hnd : (orders.map OrderLine.ticker).Nodup)
    (h : apply_inc fees frac st orders pool top = some (o', p')) :
    (o' = orders ∧ p' = pool) ∨
    ∃ f : OrderLine → OrderLine, o' = orders.map f ∧
      (∀ o, (f o).ticker = o.ticker) ∧
      (∀ o, (f o).side = o.side) ∧
      (∀ o, (f o).price = o.price) ∧
      (∀ o, o.ticker ≠ top → f o = o) ∧
      (∀ o ∈ orders, f o = o ∨
        (o.side = "BUY" ∧ 0 < o.shares ∧ o.shares ≤ (f o).shares ∧
          (f o).shares * (f o).price + (f o).est_fee_usd ≤
            o.shares * o.price + fees.fee o.shares + pool + eps)) := by
  unfold apply_inc at h
  split_ifs at h with ht
  · exact inc_shares_shape fees frac st orders top pool o' p' hnd h
  · simp only [Option.some.injEq, Prod.mk.injEq] at h
    exact Or.inl ⟨h.1.symm, h.2.symm⟩

/-! ### Lemmas about the first allocation pass -/

theorem first_pass_line_ticker (prices : String → ℚ) (fx spread : ℚ)
    (frac : Bool) (st : ℚ) (fees : BuyFees) (sug : String → ℚ) (t : String) :
    (first_pass_line prices fx spread frac st fees sug t).1.ticker = t := by
  simp only [first_pass_line]
  split <;> rfl

theorem first_pass_line_sides (prices : String → ℚ) (fx spread : ℚ)
    (frac : Bool) (st : ℚ) (fees : BuyFees) (sug : String → ℚ) (t : String) :
    (first_pass_line prices fx spread frac st fees sug t).1.side = "BUY" ∨
    (first_pass_line prices fx spread frac st fees sug t).1.side = "HOLD" := by
  simp only [first_pass_line]
  split
  · exact Or.inr rfl
  · split
    · exact Or.inl rfl
    · exact Or.inr rfl

theorem first_pass_line_shares_nonneg (prices : String → ℚ) (fx spread : ℚ)
    (frac : Bool) (st : ℚ) (fees : BuyFees) (sug : String → ℚ) (t : String) :
    0 ≤ (first_pass_line prices fx spread frac st fees sug t).1.shares := by
  simp only [first_pass_line]
  split
  · exact le_rfl
  · exact (affordable_buy_shares_invariant _ _ _ frac fees).1

theorem first_pass_line_of_nonpos (prices : String → ℚ) (fx spread : ℚ)
    (frac : Bool) (st : ℚ) (fees : BuyFees) (sug : String → ℚ) (t : String)
    (h : sug t ≤ 0) :
    first_pass_line prices fx spread frac st fees sug t =
      (⟨t, "HOLD", 0, prices t, 0, 0, ""⟩, 0) := by
  simp [first_pass_line, h]

theorem first_pass_line_hold (prices : String → ℚ) (fx spread : ℚ)
    (frac : Bool) (st : ℚ) (fees : BuyFees) (sug : String → ℚ) (t : String)
    (h : (first_pass_line prices fx spread frac st fees sug t).1.side = "HOLD") :
    (first_pass_line prices fx spread frac st fees sug t).1.shares = 0 ∧
    (first_pass_line prices fx spread frac st fees sug t).1.est_fee_usd = 0 := by
  by_cases hc : sug t ≤ 0
  · rw [first_pass_line_of_nonpos prices fx spread frac st fees sug t hc]
    exact ⟨rfl, rfl⟩
  · obtain ⟨hn, hfe⟩ := affordable_buy_shares_invariant
      (sug t / fx * (1 - spread)) (prices t) st frac fees
    by_cases hpos : 0 < (affordable_buy_shares
        (sug t / fx * (1 - spread)) (prices t) frac st fees).1
    · exfalso
      simp only [first_pass_line, if_neg hc] at h
      rw [if_pos hpos] at h
      exact absurd h (by decide)
    · have h0 : (affordable_buy_shares
          (sug t / fx * (1 - spread)) (prices t) frac st fees).1 = 0 :=
        le_antisymm (not_lt.mp hpos) hn
      constructor
      · simp only [first_pass_line, if_neg hc]
        exact h0
      · simp only [first_pass_line, if_neg hc]
        rw [hfe, h0, fee_zero]

/-! ### Lemmas about the stable top-two selection -/

theorem pick_top_ne_none (x : String × ℚ) (xs : List (String × ℚ)) :
    pick_top (x :: xs) ≠ none := by
  intro h
  simp only [pick_top] at h
  cases hxs : pick_top xs with
  | none =>
    simp only [hxs] at h
    exact Option.some_ne_none _ h
  | some m =>
    obtain ⟨m, r⟩ := m
    simp only [hxs] at h
    split_ifs at h <;> simp_all

theorem pick_top_splits :
    ∀ {l : List (String × ℚ)} {x : String × ℚ} {rest : List (String × ℚ)},
      pick_top l = some (x, rest) →
      ∃ l1 l2, l = l1 ++ x :: l2 ∧ rest = l1 ++ l2 := by
  intro l
  induction l with
  | nil => intro x rest h; exact absurd h (by simp [pick_top])
  | cons y ys ih =>
    intro x rest h
    simp only [pick_top] at h
    cases hys : pick_top ys with
    | none =>
      simp only [hys] at h
      cases ys with
      | nil =>
        simp only [Option.some.injEq, Prod.mk.injEq] at h
        obtain ⟨rfl, rfl⟩ := h
        exact ⟨[], [], rfl, rfl⟩
      | cons z zs => exact absurd hys (pick_top_ne_none z zs)
    | some m =>
      obtain ⟨m, r⟩ := m
      simp only [hys] at h
      split_ifs at h with hlt
      · simp only [Option.some.injEq, Prod.mk.injEq] at h
        obtain ⟨rfl, rfl⟩ := h
        obtain ⟨l1, l2, hys_eq, hr_eq⟩ := ih hys
        exact ⟨y :: l1, l2, by rw [hys_eq]; rfl, by rw [hr_eq]; simp⟩
      · simp only [Option.some.injEq, Prod.mk.injEq] at h
        obtain ⟨rfl, rfl⟩ := h
        exact ⟨[], ys, rfl, rfl⟩

theorem pick_top_max :
    ∀ {l : List (String × ℚ)} {x : String × ℚ} {rest : List (String × ℚ)},
      pick_top l = some (x, rest) → ∀ y ∈ l, y.2 ≤ x.2 := by
  intro l
  induction l with
  | nil => intro x rest h; exact absurd h (by simp [pick_top])
  | cons z zs ih =>
    intro x rest h y hy
    simp only [pick_top] at h
    cases hzs : pick_top zs with
    | none =>
      simp only [hzs] at h
      cases zs with
      | nil =>
        simp only [Option.some.injEq, Prod.mk.injEq] at h
        obtain ⟨rfl, -⟩ := h
        rcases List.mem_singleton.mp hy with rfl
        exact le_rfl
      | cons w ws => exact absurd hzs (pick_top_ne_none w ws)
    | some m =>
      obtain ⟨m, r⟩ := m
      simp only [hzs] at h
      split_ifs at h with hlt
      · simp only [Option.some.injEq, Prod.mk.injEq] at h
        obtain ⟨rfl, -⟩ := h
        rcases List.mem_cons.mp hy with rfl | hy'
        · exact hlt.le
        · exact ih hzs y hy'
      · simp only [Option.some.injEq, Prod.mk.injEq] at h
        obtain ⟨rfl, -⟩ := h
        rcases List.mem_cons.mp hy with rfl | hy'
        · exact le_rfl
        · exact le_trans (ih hzs y hy') (not_lt.mp hlt)

theorem pick_top_mem {l : List (String × ℚ)} {x : String × ℚ}
    {rest : List (String × ℚ)} (h : pick_top l = some (x, rest)) : x ∈ l := by
  obtain ⟨l1, l2, hl, -⟩ := pick_top_splits h
  rw [hl]
  exact List.mem_append.mpr (Or.inr (List.mem_cons_self _ _))

/-! ### Lemmas about the underweight scoring -/

theorem under_score_nonneg (t c w : ℚ) : 0 ≤ under_score t c w := by
  unfold under_score
  split
  · exact le_rfl
  · exact le_max_left 0 _

theorem scored_tickers_fst (cfg : Config) (holdings : List Holding)
    (prices : String → ℚ) (fx : ℚ) :
    (scored_tickers cfg holdings prices fx).map Prod.fst =
      holdings.map Holding.ticker := by
  simp [scored_tickers]

theorem scored_tickers_nonneg (cfg : Config) (holdings : List Holding)
    (prices : String → ℚ) (fx : ℚ) :
    ∀ p ∈ scored_tickers cfg holdings prices fx, 0 ≤ p.2 := by
  intro p hp
  obtain ⟨h, -, rfl⟩ := List.mem_map.mp hp
  exact under_score_nonneg _ _ _

/-! ### C5 and C4: behaviour of the bounded searches -/

theorem opt_some_bind {α β : Type} (a : α) (f : α → Option β) :
    (some a).bind f = f a := rfl

theorem afford_loop_int_head (fees : BuyFees) (b p : ℚ) (fuel : ℕ) (n : ℤ)
    (h : (n:ℚ) * p + fees.fee (n:ℚ) ≤ b + eps) :
    afford_loop_int fees b p (fuel + 1) n = ((n:ℚ), fees.fee (n:ℚ)) := by
  simp only [afford_loop_int, if_pos h]

theorem inc_loop_int_head (fees : BuyFees) (price os oc pool : ℚ) (k : ℕ)
    (h : (os + ((k:ℚ) + 1)) * price + fees.fee (os + ((k:ℚ) + 1)) - oc ≤ pool + eps) :
    inc_loop_int fees price os oc pool (k + 1) =
      some (os + ((k:ℚ) + 1), fees.fee (os + ((k:ℚ) + 1)),
        pool - ((os + ((k:ℚ) + 1)) * price + fees.fee (os + ((k:ℚ) + 1)) - oc)) := by
  simp only [inc_loop_int, if_pos h]

/-- C5 (amended): `affordable_buy_shares` always returns a quantity ≥ 0,
and its loops terminate within the fixed 200000/100000 iteration caps by
construction.  When no positive quantity is ever budget-feasible: if the
initial estimate is within the cap's reach the result is 0 shares, but
when the cap is exhausted the result is the initial estimate decremented
once per iteration together with its fee — a quantity that need not
satisfy the budget constraint — rather than the claimed "last feasible
quantity found, defaulting to 0". -/
theorem afford_bounded_search (b p st : ℚ) (frac : Bool) (fees : BuyFees) :
    0 ≤ (affordable_buy_shares b p frac st fees).1 ∧
    (0 < b → 0 < p →
      (∀ s : ℚ, 0 < s → ¬(s * p + fees.fee s ≤ b + eps)) →
      max 0 (round10 (round_down (b / p) st)) ≤ 200000 * st →
      (affordable_buy_shares b p true st fees).1 = 0) ∧
    (0 < b → 0 < p → 0 ≤ st →
      (∀ s : ℚ, 0 < s → ¬(s * p + fees.fee s ≤ b + eps)) →
      200000 * st < max 0 (round10 (round_down (b / p) st)) →
      affordable_buy_shares b p true st fees =
        (max 0 (round10 (round_down (b / p) st)) - 200000 * st,
          fees.fee (max 0 (round10 (round_down (b / p) st)) - 200000 * st))) := by
  refine ⟨(affordable_buy_shares_invariant b p st frac fees).1, ?_, ?_⟩
  · intro hb hp hinf hcap
    unfold affordable_buy_shares
    rw [if_neg (afford_guard_false hb hp), if_pos rfl]
    exact afford_loop_frac_deplete fees b p st hb hinf 200000 _ (le_max_left 0 _)
      (by push_cast; exact hcap)
  · intro hb hp hst hinf hcap
    unfold affordable_buy_shares
    rw [if_neg (afford_guard_false hb hp), if_pos rfl]
    have := afford_loop_frac_exhaust fees b p st hst hinf 200000
      (max 0 (round10 (round_down (b / p) st))) (by push_cast; exact hcap)
    rw [this]
    norm_num

theorem fees_min5_infeasible :
    ∀ s : ℚ, 0 < s → ¬(s * 1 + fees_min5.fee s ≤ 1 + eps) := by
  intro s hs hc
  have h5 : fees_min5.fee s = 5 := by
    simp only [BuyFees.fee, fees_min5, if_neg (not_le.mpr hs), zero_mul]
    norm_num
  rw [h5] at hc
  rw [eps] at hc
  norm_num at hc
  linarith

/-- C5 counterexample: budget 1 USD, price 1 USD, step 1e-9, a 5 USD
commission minimum.  No positive quantity is ever affordable, yet after
the 200000-iteration cap the search returns 0.9998 shares costing about
5.9998 USD — not the claimed 0. -/
theorem afford_cap_exhaustion_counterexample :
    affordable_buy_shares 1 1 true (1/1000000000) fees_min5 = (4999/5000, 5) ∧
    ¬((4999/5000 : ℚ) * 1 + 5 ≤ 1 + eps) ∧ (4999/5000 : ℚ) ≠ 0 := by
  have hinit : max 0 (round10 (round_down ((1:ℚ)/1) (1/1000000000))) = 1 := by
    norm_num [round_down, round10, roundHalfEven]
  have hmain : affordable_buy_shares 1 1 true (1/1000000000) fees_min5 =
      (1 - (200000:ℕ) * ((1:ℚ)/1000000000),
        fees_min5.fee (1 - (200000:ℕ) * ((1:ℚ)/1000000000))) := by
    unfold affordable_buy_shares
    rw [if_neg (afford_guard_false (by norm_num) (by norm_num)), if_pos rfl, hinit]
    exact afford_loop_frac_exhaust fees_min5 1 1 (1/1000000000) (by norm_num)
      fees_min5_infeasible 200000 1 (by push_cast; norm_num)
  rw [hmain]
  have hval : (1:ℚ) - (200000:ℕ) * ((1:ℚ)/1000000000) = 4999/5000 := by
    push_cast
    norm_num
  rw [hval]
  refine ⟨?_, by norm_num [eps], by norm_num⟩
  have hfee : fees_min5.fee (4999/5000) = 5 := by
    simp only [BuyFees.fee, fees_min5, if_neg (by norm_num : ¬(4999/5000:ℚ) ≤ 0), zero_mul]
    norm_num
  rw [hfee]

/-- C5 witness: with step 1, the same infeasible schedule depletes to 0
shares within the cap. -/
theorem afford_bounded_search_witness :
    (affordable_buy_shares 1 1 true 1 fees_min5).1 = 0 :=
  (afford_bounded_search 1 1 1 true fees_min5).2.1 (by norm_num) (by norm_num)
    fees_min5_infeasible
    (by norm_num [round_down, round10, roundHalfEven])

/-- C4 (amended): a first-pass order line obeys
`shares * price + fee ≤ subBudget + ε` whenever the budget-implied initial
estimate is within the iteration cap's reach (always except at cap
exhaustion); a line enlarged by the second pass keeps its cost increase
within the then-remaining leftover pool `+ ε`, so it can exceed its own
sub-budget by at most the pool contributed by the other tickers (see the
counterexample). -/
theorem order_cost_bounds :
    (∀ (b p st : ℚ) (fees : BuyFees), 0 < b → 0 < p → 0 < st →
      b / p + eps ≤ 200000 * st →
      (affordable_buy_shares b p true st fees).1 * p +
        (affordable_buy_shares b p true st fees).2 ≤ b + eps) ∧
    (∀ (b p st : ℚ) (fees : BuyFees), 0 < b → 0 < p → ⌊b / p⌋ ≤ 100000 →
      (affordable_buy_shares b p false st fees).1 * p +
        (affordable_buy_shares b p false st fees).2 ≤ b + eps) ∧
    (∀ (fees : BuyFees) (frac : Bool) (st : ℚ) (orders o' : List OrderLine)
      (tk : String) (pool p' : ℚ),
      (orders.map OrderLine.ticker).Nodup →
      inc_shares fees frac st orders tk pool = some (o', p') →
      ∀ l' ∈ o', ∃ l ∈ orders, l'.ticker = l.ticker ∧
        (l' = l ∨
          (l.side = "BUY" ∧ l.shares ≤ l'.shares ∧
            l'.shares * l'.price + l'.est_fee_usd ≤
              l.shares * l.price + fees.fee l.shares + pool + eps))) := by
  refine ⟨affordable_fits_frac, affordable_fits_int, ?_⟩
  intro fees frac st orders o' tk pool p' hnd h l' hl'
  rcases inc_shares_shape fees frac st orders tk pool o' p' hnd h with
    ⟨rfl, -⟩ | ⟨f, rfl, ht, hs, hp, ho, hm⟩
  · exact ⟨l', hl', rfl, Or.inl rfl⟩
  · obtain ⟨l, hl, rfl⟩ := List.mem_map.mp hl'
    refine ⟨l, hl, ht l, ?_⟩
    rcases hm l hl with he | ⟨hbuy, -, hle, hcost⟩
    · exact Or.inl he
    · exact Or.inr ⟨hbuy, hle, hcost⟩

/-! ### A worked concrete run of the allocator -/

theorem afford_A : affordable_buy_shares 10 3 false 1 (⟨0,0,0,0,0,0⟩ : BuyFees) = (3, 0) := by
  unfold affordable_buy_shares
  rw [if_neg (by norm_num), if_neg (by simp), show ⌊(10:ℚ)/3⌋ = 3 by norm_num,
    show (100000:ℕ) = 99999+1 from rfl,
    afford_loop_int_head _ _ _ _ _ (by norm_num [BuyFees.fee, eps])]
  norm_num [BuyFees.fee]

theorem afford_B : affordable_buy_shares 10 7 false 1 (⟨0,0,0,0,0,0⟩ : BuyFees) = (1, 0) := by
  unfold affordable_buy_shares
  rw [if_neg (by norm_num), if_neg (by simp), show ⌊(10:ℚ)/7⌋ = 1 by norm_num,
    show (100000:ℕ) = 99999+1 from rfl,
    afford_loop_int_head _ _ _ _ _ (by norm_num [BuyFees.fee, eps])]
  norm_num [BuyFees.fee]

theorem pick_top_run1 : pick_top [("A",(1:ℚ)/2),("B",(1:ℚ)/2)] =
    some (("A",1/2), [("B",1/2)]) := by
  norm_num [pick_top]

theorem pick_top_run2 : pick_top [("B",(1:ℚ)/2)] = some (("B",(1:ℚ)/2), []) := by
  norm_num [pick_top]

theorem sug_run_A : (suggested_of 20 2 [("A",(1:ℚ)/2),("B",(1:ℚ)/2)]).1 "A" = 10 := by
  norm_num [suggested_of, pick_top_run1, pick_top_run2]

theorem sug_run_B : (suggested_of 20 2 [("A",(1:ℚ)/2),("B",(1:ℚ)/2)]).1 "B" = 10 := by
  norm_num [suggested_of, pick_top_run1, pick_top_run2]

theorem sug_run_tops : (suggested_of 20 2 [("A",(1:ℚ)/2),("B",(1:ℚ)/2)]).2 = ("A", "B") := by
  norm_num [suggested_of, pick_top_run1, pick_top_run2]

theorem line_run_A : first_pass_line prices_ab 1 0 false 1 (⟨0,0,0,0,0,0⟩ : BuyFees)
    (suggested_of 20 2 [("A",(1:ℚ)/2),("B",(1:ℚ)/2)]).1 "A" = (lineA, 1) := by
  show _ = ((⟨"A", "BUY", 3, 3, 0, 9, "OK"⟩ : OrderLine), (1:ℚ))
  simp only [first_pass_line, sug_run_A]
  rw [if_neg (by norm_num : ¬(10:ℚ) ≤ 0), show prices_ab "A" = 3 from rfl,
    show (10:ℚ)/1*(1-0) = 10 by norm_num, afford_A]
  norm_num

theorem line_run_B : first_pass_line prices_ab 1 0 false 1 (⟨0,0,0,0,0,0⟩ : BuyFees)
    (suggested_of 20 2 [("A",(1:ℚ)/2),("B",(1:ℚ)/2)]).1 "B" = (lineB, 3) := by
  show _ = ((⟨"B", "BUY", 1, 7, 0, 7, "OK"⟩ : OrderLine), (3:ℚ))
  simp only [first_pass_line, sug_run_B]
  rw [if_neg (by norm_num : ¬(10:ℚ) ≤ 0), show prices_ab "B" = 7 from rfl,
    show (10:ℚ)/1*(1-0) = 10 by norm_num, afford_B]
  norm_num

theorem inc_run_A : apply_inc (⟨0,0,0,0,0,0⟩ : BuyFees) false 1 [lineA, lineB] 4 "A" =
    some ([lineA2, lineB], 1) := by
  unfold apply_inc
  rw [if_pos (by decide : ("A":String) ≠ "")]
  unfold inc_shares
  rw [if_neg (by norm_num : ¬(4:ℚ) ≤ 0)]
  rw [show List.find? (fun ol => ol.ticker = "A") [lineA, lineB] = some lineA from by
    simp [List.find?, lineA]]
  simp only [lineA]
  rw [if_neg (by norm_num : ¬((("BUY":String) ≠ "BUY") ∨ (3:ℚ) ≤ 0)),
    if_neg (by norm_num : ¬(3:ℚ) = 0)]
  simp only [Bool.false_eq_true, if_false]
  rw [show ((⌊(4:ℚ) / 3⌋).toNat) = 0 + 1 by norm_num]
  rw [inc_loop_int_head _ _ _ _ _ _ (by norm_num [BuyFees.fee, eps])]
  simp only [Option.some.injEq, Prod.mk.injEq]
  constructor
  · simp [upd_line, lineA, lineB, lineA2, BuyFees.fee]
    norm_num
  · norm_num [BuyFees.fee]

theorem inc_run_B : apply_inc (⟨0,0,0,0,0,0⟩ : BuyFees) false 1 [lineA2, lineB] 1 "B" =
    some ([lineA2, lineB], 1) := by
  unfold apply_inc
  rw [if_pos (by decide : ("B":String) ≠ "")]
  unfold inc_shares
  rw [if_neg (by norm_num : ¬(1:ℚ) ≤ 0)]
  rw [show List.find? (fun ol => ol.ticker = "B") [lineA2, lineB] = some lineB from by
    simp [List.find?, lineA2, lineB]]
  simp only [lineB]
  rw [if_neg (by norm_num : ¬((("BUY":String) ≠ "BUY") ∨ (1:ℚ) ≤ 0)),
    if_neg (by norm_num : ¬(7:ℚ) = 0)]
  simp only [Bool.false_eq_true, if_false]
  rw [show ((⌊(1:ℚ) / 7⌋).toNat) = 0 by norm_num]
  rfl

/-- A full concrete run of `allocate_orders`: fee-free whole-share
configuration, two empty holdings A and B at prices 3 and 7, a 20 CNY
budget at fx 1.  Each ticker's sub-budget is 10 USD; A ends with 4 shares
(12 USD) after absorbing the 4 USD leftover pool. -/
theorem allocate_orders_example_run :
    allocate_orders cfg_alloc holdings_ab prices_ab 20 0 (some 1) =
      some ([lineA2, lineB], 0, 1) := by
  have hsc : scored_tickers cfg_alloc holdings_ab prices_ab 1 = [("A", 1/2), ("B", 1/2)] := by
    norm_num [scored_tickers, holding_value_cny, under_score, cfg_alloc, holdings_ab, prices_ab]
  simp only [allocate_orders]
  rw [if_neg (by norm_num : ¬(20:ℚ) ≤ 0)]
  rw [show fx_of cfg_alloc (some 1) = 1 from rfl]
  rw [show total_cny_of cfg_alloc 20 0 = 20 by norm_num [total_cny_of, cfg_alloc]]
  rw [hsc]
  rw [show holdings_ab.length = 2 from rfl]
  rw [show buy_fees_of cfg_alloc = ⟨0,0,0,0,0,0⟩ from rfl]
  rw [show cfg_alloc.execution.allow_fractional_shares = false from rfl]
  rw [show cfg_alloc.execution.fractional_step = 1 from rfl]
  rw [show cfg_alloc.execution.spread_cost_pct = 0 from rfl]
  rw [show List.map (fun h => first_pass_line prices_ab 1 0 false 1 (⟨0,0,0,0,0,0⟩ : BuyFees)
      (suggested_of 20 2 [("A",(1:ℚ)/2),("B",(1:ℚ)/2)]).1 h.ticker) holdings_ab =
    [first_pass_line prices_ab 1 0 false 1 (⟨0,0,0,0,0,0⟩ : BuyFees)
      (suggested_of 20 2 [("A",(1:ℚ)/2),("B",(1:ℚ)/2)]).1 "A",
     first_pass_line prices_ab 1 0 false 1 (⟨0,0,0,0,0,0⟩ : BuyFees)
      (suggested_of 20 2 [("A",(1:ℚ)/2),("B",(1:ℚ)/2)]).1 "B"] from rfl]
  rw [line_run_A, line_run_B, sug_run_tops]
  rw [show (List.map Prod.snd [("A",(1:ℚ)/2),("B",(1:ℚ)/2)]).sum = 1 by norm_num]
  rw [show tops_of 1 [("A",(1:ℚ)/2),("B",(1:ℚ)/2)] ("A","B") = some ("A","B") from by
    norm_num [tops_of]]
  simp only [opt_some_bind, List.map_cons, List.map_nil, List.sum_cons, List.sum_nil]
  rw [show ((1:ℚ) + (3 + 0)) = 4 by norm_num]
  rw [inc_run_A]
  simp only [opt_some_bind]
  rw [inc_run_B]
  simp only [Option.map]
  rw [show total_fee_of [lineA2, lineB] = 0 from by
    simp [total_fee_of, lineA2, lineB]]
  norm_num

/-- C4 counterexample: in the worked run, ticker A's allocated sub-budget
is 10 USD, yet its returned order line (enlarged by the second-pass
leftover redistribution) costs 12 USD — more than sub-budget + ε. -/
theorem order_overspends_sub_budget_counterexample :
    allocate_orders cfg_alloc holdings_ab prices_ab 20 0 (some 1) =
      some ([lineA2, lineB], 0, 1) ∧
    (suggested_of (total_cny_of cfg_alloc 20 0) holdings_ab.length
        (scored_tickers cfg_alloc holdings_ab prices_ab (fx_of cfg_alloc (some 1)))).1 "A" /
        fx_of cfg_alloc (some 1) * (1 - cfg_alloc.execution.spread_cost_pct) = 10 ∧
    lineA2 ∈ [lineA2, lineB] ∧
    ¬(lineA2.shares * lineA2.price + lineA2.est_fee_usd ≤ 10 + eps) := by
  refine ⟨allocate_orders_example_run, ?_, List.mem_cons_self _ _, ?_⟩
  · rw [show fx_of cfg_alloc (some 1) = 1 from rfl,
      show total_cny_of cfg_alloc 20 0 = 20 by norm_num [total_cny_of, cfg_alloc],
      show holdings_ab.length = 2 from rfl]
    have hsc : scored_tickers cfg_alloc holdings_ab prices_ab 1 = [("A", 1/2), ("B", 1/2)] := by
      norm_num [scored_tickers, holding_value_cny, under_score, cfg_alloc, holdings_ab, prices_ab]
    rw [hsc, sug_run_A]
    norm_num [cfg_alloc]
  · norm_num [lineA2, eps]

/-- C4 witness: within the cap, the fractional search respects its budget
(budget 10, price 1, step 1/10, fee-free). -/
theorem order_cost_bounds_witness :
    (affordable_buy_shares 10 1 true (1/10) fees_free).1 * 1 +
      (affordable_buy_shares 10 1 true (1/10) fees_free).2 ≤ 10 + eps :=
  order_cost_bounds.1 10 1 (1/10) fees_free (by norm_num) (by norm_num) (by norm_num)
    (by norm_num [eps])

/-! ### C10: shape of the produced order list -/

theorem step_preserves (fees : BuyFees) (frac : Bool) (st : ℚ)
    (orders : List OrderLine) (pool : ℚ) (top : String)
    (o' : List OrderLine) (p' : ℚ)
    (hnd : (orders.map OrderLine.ticker).Nodup)
    (h : apply_inc fees frac st orders pool top = some (o', p'))
    (hinv : ∀ l ∈ orders, (l.side = "BUY" ∨ l.side = "HOLD") ∧ 0 ≤ l.shares ∧
      (l.side = "HOLD" → l.shares = 0 ∧ l.est_fee_usd = 0)) :
    o'.map OrderLine.ticker = orders.map OrderLine.ticker ∧
    (∀ l ∈ o', (l.side = "BUY" ∨ l.side = "HOLD") ∧ 0 ≤ l.shares ∧
      (l.side = "HOLD" → l.shares = 0 ∧ l.est_fee_usd = 0)) ∧
    (∀ l ∈ o', l.ticker ≠ top → l ∈ orders) := by
  rcases apply_inc_shape fees frac st orders pool top o' p' hnd h with
    ⟨rfl, -⟩ | ⟨f, rfl, ht, hs, hp, ho, hm⟩
  · exact ⟨rfl, hinv, fun l hl _ => hl⟩
  · refine ⟨?_, ?_, ?_⟩
    · rw [List.map_map]
      exact List.map_congr_left fun o _ => ht o
    · intro l hl
      obtain ⟨l0, hl0, rfl⟩ := List.mem_map.mp hl
      obtain ⟨c1, c2, c3⟩ := hinv l0 hl0
      refine ⟨by rw [hs l0]; exact c1, ?_, ?_⟩
      · rcases hm l0 hl0 with he | ⟨-, hpos, hle, -⟩
        · rw [he]; exact c2
        · exact le_trans hpos.le hle
      · intro hH
        have hs0 : l0.side = "HOLD" := by rw [← hs l0]; exact hH
        rcases hm l0 hl0 with he | ⟨hbuy, -, -, -⟩
        · rw [he]; exact c3 hs0
        · rw [hbuy] at hs0
          exact absurd hs0 (by decide)
    · intro l hl hne
      obtain ⟨l0, hl0, rfl⟩ := List.mem_map.mp hl
      have : l0.ticker ≠ top := by rw [← ht l0]; exact hne
      rw [ho l0 this]
      exact hl0

theorem first_pass_list_facts (prices : String → ℚ) (fx spread : ℚ) (frac : Bool)
    (st : ℚ) (fees : BuyFees) (sug : String → ℚ) (holdings : List Holding) :
    (((holdings.map fun h => first_pass_line prices fx spread frac st fees sug h.ticker).map
        Prod.fst).map OrderLine.ticker = holdings.map Holding.ticker) ∧
    (∀ l ∈ (holdings.map fun h =>
        first_pass_line prices fx spread frac st fees sug h.ticker).map Prod.fst,
      (l.side = "BUY" ∨ l.side = "HOLD") ∧ 0 ≤ l.shares ∧
        (l.side = "HOLD" → l.shares = 0 ∧ l.est_fee_usd = 0)) := by
  constructor
  · rw [List.map_map, List.map_map]
    apply List.map_congr_left
    intro h hh
    exact first_pass_line_ticker prices fx spread frac st fees sug h.ticker
  · intro l hl
    obtain ⟨pr, hpr, rfl⟩ := List.mem_map.mp hl
    obtain ⟨h, hh, rfl⟩ := List.mem_map.mp hpr
    exact ⟨first_pass_line_sides prices fx spread frac st fees sug h.ticker,
      first_pass_line_shares_nonneg prices fx spread frac st fees sug h.ticker,
      first_pass_line_hold prices fx spread frac st fees sug h.ticker⟩

/-- C10: for every successful `allocate_orders` run with a positive budget
and distinct tickers, the returned list has exactly one order line per
holdings row, in the holdings' input order; every line's side is BUY or
HOLD (never SELL), every share quantity is ≥ 0, and every HOLD line has
exactly 0 shares and 0 fee. -/
theorem allocate_orders_lines (cfg : Config) (holdings : List Holding)
    (prices : String → ℚ) (buy_total_cny cash_pool_cny : ℚ) (fx : Option ℚ)
    (lines : List OrderLine) (fee left : ℚ)
    (hb : 0 < buy_total_cny)
    (hnd : (holdings.map Holding.ticker).Nodup)
    (hres : allocate_orders cfg holdings prices buy_total_cny cash_pool_cny fx =
      some (lines, fee, left)) :
    lines.map OrderLine.ticker = holdings.map Holding.ticker ∧
    ∀ l ∈ lines, (l.side = "BUY" ∨ l.side = "HOLD") ∧ 0 ≤ l.shares ∧
      (l.side = "HOLD" → l.shares = 0 ∧ l.est_fee_usd = 0) := by
  simp only [allocate_orders] at hres
  rw [if_neg (not_le.mpr hb)] at hres
  rw [Option.bind_eq_some] at hres
  obtain ⟨tops, htops, hres⟩ := hres
  rw [Option.bind_eq_some] at hres
  obtain ⟨s1, h1, hres⟩ := hres
  rw [Option.map_eq_some'] at hres
  obtain ⟨s2, h2, hres⟩ := hres
  rw [Prod.mk.injEq, Prod.mk.injEq] at hres
  obtain ⟨h3, -, -⟩ := hres
  obtain ⟨hft, hfi⟩ := first_pass_list_facts prices (fx_of cfg fx)
    cfg.execution.spread_cost_pct cfg.execution.allow_fractional_shares
    cfg.execution.fractional_step (buy_fees_of cfg)
    (suggested_of (total_cny_of cfg buy_total_cny cash_pool_cny) holdings.length
      (scored_tickers cfg holdings prices (fx_of cfg fx))).1 holdings
  obtain ⟨k1, k2, k3⟩ := step_preserves (buy_fees_of cfg)
    cfg.execution.allow_fractional_shares cfg.execution.fractional_step _ _ tops.1 s1.1 s1.2
    (by rw [hft]; exact hnd) h1 hfi
  obtain ⟨m1, m2, m3⟩ := step_preserves (buy_fees_of cfg)
    cfg.execution.allow_fractional_shares cfg.execution.fractional_step s1.1 s1.2 tops.2
    s2.1 s2.2 (by rw [k1, hft]; exact hnd) h2 k2
  rw [← h3]
  exact ⟨by rw [m1, k1, hft], m2⟩

/-- C10 witness: the worked run of the allocator. -/
theorem allocate_orders_lines_witness :
    [lineA2, lineB].map OrderLine.ticker = holdings_ab.map Holding.ticker ∧
    ∀ l ∈ [lineA2, lineB], (l.side = "BUY" ∨ l.side = "HOLD") ∧ 0 ≤ l.shares ∧
      (l.side = "HOLD" → l.shares = 0 ∧ l.est_fee_usd = 0) :=
  allocate_orders_lines cfg_alloc holdings_ab prices_ab 20 0 (some 1)
    [lineA2, lineB] 0 1 (by norm_num) (by decide) allocate_orders_example_run


/-! ### C1: the two-ticker proportional sub-budget split -/

/-- C1: with a positive total budget, at least two distinct tickers,
positive prices and positive fx: when all underweight scores sum to 0
every ticker is assigned `total / n`; otherwise, writing `s1, s2` for the
two top scores of the stable descending ranking, if `s2 = 0` the top
ticker is assigned the whole budget and every other ticker 0, else the top
two are assigned `total*s1/(s1+s2)` and `total*s2/(s1+s2)` and every other
ticker 0; in the latter two cases every produced order line for a
non-top-two ticker is marked HOLD with 0 shares. -/
theorem apply_inc_empty (fees : BuyFees) (frac : Bool) (st : ℚ)
    (orders : List OrderLine) (pool : ℚ) :
    apply_inc fees frac st orders pool "" = some (orders, pool) := by
  unfold apply_inc
  simp

theorem sub_budget_split (cfg : Config) (holdings : List Holding)
    (prices : String → ℚ) (buy_total_cny cash_pool_cny : ℚ) (fx_opt : Option ℚ)
    (scored : List (String × ℚ)) (total : ℚ) (n : ℕ)
    (hscored : scored = scored_tickers cfg holdings prices (fx_of cfg fx_opt))
    (htotal : total = total_cny_of cfg buy_total_cny cash_pool_cny)
    (hn : n = holdings.length)
    (hlen : 2 ≤ holdings.length)
    (hnd : (holdings.map Holding.ticker).Nodup)
    (hb : 0 < buy_total_cny)
    (hB : 0 < total)
    (hp : ∀ h ∈ holdings, 0 < prices h.ticker)
    (hfx : 0 < fx_of cfg fx_opt) :
    ((scored.map Prod.snd).sum = 0 →
      ∀ t, (suggested_of total n scored).1 t = total / n) ∧
    (∀ (t1 : String) (s1 : ℚ) (rest : List (String × ℚ)) (t2 : String) (s2 : ℚ)
        (rest2 : List (String × ℚ)),
      (scored.map Prod.snd).sum ≠ 0 →
      pick_top scored = some ((t1, s1), rest) →
      pick_top rest = some ((t2, s2), rest2) →
      (∀ y ∈ scored, y.2 ≤ s1) ∧
      (∀ y ∈ rest, y.2 ≤ s2) ∧
      (s2 = 0 →
        (suggested_of total n scored).1 t1 = total ∧
        (∀ t, t ≠ t1 → (suggested_of total n scored).1 t = 0)) ∧
      (s2 ≠ 0 →
        (suggested_of total n scored).1 t1 = total * s1 / (s1 + s2) ∧
        (suggested_of total n scored).1 t2 = total * s2 / (s1 + s2) ∧
        (∀ t, t ≠ t1 → t ≠ t2 → (suggested_of total n scored).1 t = 0)) ∧
      (∀ (lines : List OrderLine) (fee left : ℚ),
        allocate_orders cfg holdings prices buy_total_cny cash_pool_cny fx_opt =
          some (lines, fee, left) →
        ∀ l ∈ lines, l.ticker ≠ t1 → l.ticker ≠ t2 →
          l.side = "HOLD" ∧ l.shares = 0)) := by
  constructor
  · intro hsum t
    simp only [suggested_of]
    rw [if_pos hsum]
  · intro t1 s1 rest t2 s2 rest2 hsum hpt hpt2
    have max1 := pick_top_max hpt
    have max2 := pick_top_max hpt2
    obtain ⟨l1, l2, hsceq, hrest⟩ := pick_top_splits hpt
    have hs2mem : (t2, s2) ∈ rest := pick_top_mem hpt2
    have hs2sc : (t2, s2) ∈ scored := by
      rw [hsceq]
      rcases List.mem_append.mp (hrest ▸ hs2mem) with hh | hh
      · exact List.mem_append_left _ hh
      · exact List.mem_append_right _ (List.mem_cons_of_mem _ hh)
    have hs2nonneg : 0 ≤ s2 := by
      have := scored_tickers_nonneg cfg holdings prices (fx_of cfg fx_opt)
        (t2, s2) (hscored ▸ hs2sc)
      simpa using this
    have hndsc : (scored.map Prod.fst).Nodup := by
      rw [hscored, scored_tickers_fst]
      exact hnd
    have ht21 : t2 ≠ t1 := by
      intro heq
      have hmap : scored.map Prod.fst = l1.map Prod.fst ++ t1 :: l2.map Prod.fst := by
        rw [hsceq]
        simp
      rw [hmap] at hndsc
      obtain ⟨-, hnd2, hdisj⟩ := List.nodup_append.mp hndsc
      have ht2in : t2 ∈ l1.map Prod.fst ++ l2.map Prod.fst := by
        rw [← List.map_append, ← hrest]
        exact List.mem_map_of_mem Prod.fst hs2mem
      rcases List.mem_append.mp ht2in with hh | hh
      · exact hdisj (heq ▸ hh) (List.mem_cons_self _ _)
      · exact (List.nodup_cons.mp hnd2).1 (heq ▸ hh)
    refine ⟨fun y hy => max1 y hy, fun y hy => max2 y hy, ?_, ?_, ?_⟩
    · intro hz
      have hopen : suggested_of total n scored =
          (fun t => if t = t1 then total else 0, t1, "") := by
        simp only [suggested_of]
        rw [if_neg hsum]
        simp only [hpt, hpt2]
        rw [if_pos hz]
      rw [hopen]
      exact ⟨by simp, fun t ht => by simp [ht]⟩
    · intro hz
      have hpos2 : 0 < s2 := lt_of_le_of_ne hs2nonneg (Ne.symm hz)
      have hopen : suggested_of total n scored =
          (fun t => if t = t1 then total * s1 / (s1 + s2)
            else if t = t2 then total * s2 / (s1 + s2) else 0, t1, t2) := by
        simp only [suggested_of]
        rw [if_neg hsum]
        simp only [hpt, hpt2]
        rw [if_neg hz, if_pos hpos2]
      rw [hopen]
      exact ⟨by simp, by simp [ht21], fun t ht1 ht2 => by simp [ht1, ht2]⟩
    · intro lines fee left hres l hl hne1 hne2
      simp only [allocate_orders] at hres
      rw [if_neg (not_le.mpr hb), ← hscored, ← htotal, ← hn] at hres
      rw [Option.bind_eq_some] at hres
      obtain ⟨tops, htops, hres⟩ := hres
      rw [Option.bind_eq_some] at hres
      obtain ⟨s1p, h1, hres⟩ := hres
      rw [Option.map_eq_some'] at hres
      obtain ⟨s2p, h2, hres⟩ := hres
      rw [Prod.mk.injEq, Prod.mk.injEq] at hres
      obtain ⟨hlines, -, -⟩ := hres
      unfold tops_of at htops
      rw [if_neg hsum] at htops
      have htops' : tops = (suggested_of total n scored).2 := (Option.some.inj htops).symm
      obtain ⟨hft, hfi⟩ := first_pass_list_facts prices (fx_of cfg fx_opt)
        cfg.execution.spread_cost_pct cfg.execution.allow_fractional_shares
        cfg.execution.fractional_step (buy_fees_of cfg)
        (suggested_of total n scored).1 holdings
      -- membership chain back to the first pass
      have hmem_first : l ∈ (holdings.map fun h =>
          first_pass_line prices (fx_of cfg fx_opt) cfg.execution.spread_cost_pct
            cfg.execution.allow_fractional_shares cfg.execution.fractional_step
            (buy_fees_of cfg) (suggested_of total n scored).1 h.ticker).map Prod.fst := by
        by_cases hz : s2 = 0
        · have hopen : suggested_of total n scored =
              (fun t => if t = t1 then total else 0, t1, "") := by
            simp only [suggested_of]
            rw [if_neg hsum]
            simp only [hpt, hpt2]
            rw [if_pos hz]
          have htop1 : tops.1 = t1 := by rw [htops', hopen]
          have htop2 : tops.2 = "" := by rw [htops', hopen]
          rw [htop2, apply_inc_empty] at h2
          obtain ⟨rfl⟩ : s2p = s1p := by
            have := Option.some.inj h2
            rw [Prod.mk.injEq] at this
            obtain ⟨ha, hb2⟩ := this
            obtain ⟨x, y⟩ := s2p
            obtain ⟨x', y'⟩ := s1p
            simp only at ha hb2
            rw [ha, hb2]
          obtain ⟨k1, k2, k3⟩ := step_preserves (buy_fees_of cfg)
            cfg.execution.allow_fractional_shares cfg.execution.fractional_step _ _ tops.1
            s1p.1 s1p.2 (by rw [hft]; exact hnd) h1 hfi
          have hls1 : l ∈ s1p.1 := by rw [← hlines] at hl; exact hl
          exact k3 l hls1 (by rw [htop1]; exact hne1)
        · have hpos2 : 0 < s2 := lt_of_le_of_ne hs2nonneg (Ne.symm hz)
          have hopen : suggested_of total n scored =
              (fun t => if t = t1 then total * s1 / (s1 + s2)
                else if t = t2 then total * s2 / (s1 + s2) else 0, t1, t2) := by
            simp only [suggested_of]
            rw [if_neg hsum]
            simp only [hpt, hpt2]
            rw [if_neg hz, if_pos hpos2]
          have htop1 : tops.1 = t1 := by rw [htops', hopen]
          have htop2 : tops.2 = t2 := by rw [htops', hopen]
          obtain ⟨k1, k2, k3⟩ := step_preserves (buy_fees_of cfg)
            cfg.execution.allow_fractional_shares cfg.execution.fractional_step _ _ tops.1
            s1p.1 s1p.2 (by rw [hft]; exact hnd) h1 hfi
          obtain ⟨m1, m2, m3⟩ := step_preserves (buy_fees_of cfg)
            cfg.execution.allow_fractional_shares cfg.execution.fractional_step s1p.1 s1p.2
            tops.2 s2p.1 s2p.2 (by rw [k1, hft]; exact hnd) h2 k2
          have hls2 : l ∈ s2p.1 := by rw [← hlines] at hl; exact hl
          have hls1 : l ∈ s1p.1 := m3 l hls2 (by rw [htop2]; exact hne2)
          exact k3 l hls1 (by rw [htop1]; exact hne1)
      -- first-pass line of a zero sub-budget ticker
      obtain ⟨pr, hpr, rfl⟩ := List.mem_map.mp hmem_first
      obtain ⟨hh, hhm, rfl⟩ := List.mem_map.mp hpr
      have hticker : (first_pass_line prices (fx_of cfg fx_opt)
          cfg.execution.spread_cost_pct cfg.execution.allow_fractional_shares
          cfg.execution.fractional_step (buy_fees_of cfg)
          (suggested_of total n scored).1 hh.ticker).1.ticker = hh.ticker :=
        first_pass_line_ticker _ _ _ _ _ _ _ _
      have hne1' : hh.ticker ≠ t1 := by rw [← hticker]; exact hne1
      have hne2' : hh.ticker ≠ t2 := by rw [← hticker]; exact hne2
      have hz0 : (suggested_of total n scored).1 hh.ticker ≤ 0 := by
        by_cases hz : s2 = 0
        · have hopen : suggested_of total n scored =
              (fun t => if t = t1 then total else 0, t1, "") := by
            simp only [suggested_of]
            rw [if_neg hsum]
            simp only [hpt, hpt2]
            rw [if_pos hz]
          rw [hopen]
          simp [hne1']
        · have hpos2 : 0 < s2 := lt_of_le_of_ne hs2nonneg (Ne.symm hz)
          have hopen : suggested_of total n scored =
              (fun t => if t = t1 then total * s1 / (s1 + s2)
                else if t = t2 then total * s2 / (s1 + s2) else 0, t1, t2) := by
            simp only [suggested_of]
            rw [if_neg hsum]
            simp only [hpt, hpt2]
            rw [if_neg hz, if_pos hpos2]
          rw [hopen]
          simp [hne1', hne2']
      rw [first_pass_line_of_nonpos prices (fx_of cfg fx_opt)
        cfg.execution.spread_cost_pct cfg.execution.allow_fractional_shares
        cfg.execution.fractional_step (buy_fees_of cfg)
        (suggested_of total n scored).1 hh.ticker hz0]
      exact ⟨rfl, rfl⟩
/-- C1 witness: the spec's worked example — underweight scores 0.03 and
0.01 with a 10000 CNY budget split 7500 / 2500. -/
theorem sub_budget_split_witness :
    (suggested_of 10000 2 [("A",(3:ℚ)/100),("B",(1:ℚ)/100)]).1 "A" = 7500 ∧
    (suggested_of 10000 2 [("A",(3:ℚ)/100),("B",(1:ℚ)/100)]).1 "B" = 2500 := by
  have h := (sub_budget_split cfg_c1 holdings_c1 prices_one 10000 0 (some 1)
      [("A",(3:ℚ)/100),("B",(1:ℚ)/100)] 10000 2
      (by norm_num [scored_tickers, holding_value_cny, under_score, cfg_c1,
        holdings_c1, prices_one, fx_of])
      (by norm_num [total_cny_of, cfg_c1])
      rfl (by norm_num [holdings_c1]) (by decide) (by norm_num) (by norm_num)
      (fun h hh => by norm_num [prices_one])
      (by norm_num [fx_of])).2
    "A" (3/100) [("B",(1:ℚ)/100)] "B" (1/100) []
    (by norm_num) (by norm_num [pick_top]) (by norm_num [pick_top])
  obtain ⟨-, -, -, h4, -⟩ := h
  obtain ⟨hA, hB, -⟩ := h4 (by norm_num)
  rw [hA, hB]
  norm_num

end ETF
